/-
  Verification of the Slov-Lex ingestion core (Slovak-law-mcp).

  Shallow embedding of the HTML-to-structured-law extraction pipeline from
  `scripts/lib/fetcher.ts` (parser part) and `scripts/ingest.ts`.
  JavaScript strings are modelled as `List Char`; JS string comparison
  (`<` on strings) is modelled code-point-wise, which coincides with the
  UTF-16 code-unit order on the BMP characters that occur in this data
  (ISO dates, Slovak text, HTML).
-/
import Mathlib

namespace SlovakLaw

/-! ### JS string order (used by `compareDate`) -/

/-- JS `a < b` on strings: lexicographic by code unit.  On BMP characters
(code point = code unit) this is lexicographic comparison of code points. -/
def strLt : List Char → List Char → Bool
  | _, [] => false
  | [], _ :: _ => true
  | a :: as, b :: bs =>
    if a.toNat < b.toNat then true
    else if b.toNat < a.toNat then false
    else strLt as bs

theorem strLt_irrefl (a : List Char) : strLt a a = false := by
  induction a with
  | nil => rfl
  | cons c cs ih => simp [strLt, ih]

/-- Two characters with the same code point are equal. -/
theorem char_eq_of_toNat_eq {a b : Char} (h : a.toNat = b.toNat) : a = b := by
  have h3 : Char.ofNat a.toNat = Char.ofNat b.toNat := by rw [h]
  simpa using h3

theorem strLt_asymm : ∀ {a b : List Char}, strLt a b = true → strLt b a = false
  | a, [], h => by cases a <;> simp [strLt] at h
  | [], _ :: _, _ => rfl
  | a :: as, b :: bs, h => by
    simp only [strLt] at h ⊢
    rcases Nat.lt_trichotomy a.toNat b.toNat with hlt | heq | hgt
    · rw [if_neg (by omega), if_pos hlt]
    · rw [if_neg (by omega), if_neg (by omega)] at h
      rw [if_neg (by omega), if_neg (by omega)]
      exact strLt_asymm h
    · rw [if_neg (by omega), if_pos hgt] at h
      exact absurd h (by simp)

theorem strLt_connex : ∀ {a b : List Char}, strLt a b = false → strLt b a = false → a = b
  | [], [], _, _ => rfl
  | [], _ :: _, h, _ => by simp [strLt] at h
  | _ :: _, [], _, h => by simp [strLt] at h
  | a :: as, b :: bs, h, h' => by
    simp only [strLt] at h h'
    rcases Nat.lt_trichotomy a.toNat b.toNat with hlt | heq | hgt
    · rw [if_pos hlt] at h
      exact absurd h (by simp)
    · rw [if_neg (by omega), if_neg (by omega)] at h
      rw [if_neg (by omega), if_neg (by omega)] at h'
      have hab : a = b := char_eq_of_toNat_eq heq
      rw [hab, strLt_connex h h']
    · rw [if_pos hgt] at h'
      exact absurd h' (by simp)

theorem strLt_trans : ∀ {a b c : List Char},
    strLt a b = true → strLt b c = true → strLt a c = true
  | _, b, [], _, h => by cases b <;> simp [strLt] at h
  | [], _, _ :: _, _, _ => by simp [strLt]
  | _ :: _, [], _, h, _ => by simp [strLt] at h
  | a :: as, b :: bs, c :: cs, h, h' => by
    simp only [strLt] at h h' ⊢
    rcases Nat.lt_trichotomy a.toNat b.toNat with hab | hab | hab
    · rcases Nat.lt_trichotomy b.toNat c.toNat with hbc | hbc | hbc
      · rw [if_pos (by omega)]
      · rw [if_pos (by omega)]
      · rw [if_neg (by omega), if_pos hbc] at h'
        exact absurd h' (by simp)
    · rw [if_neg (by omega), if_neg (by omega)] at h
      rcases Nat.lt_trichotomy b.toNat c.toNat with hbc | hbc | hbc
      · rw [if_pos (by omega)]
      · rw [if_neg (by omega), if_neg (by omega)] at h'
        rw [if_neg (by omega), if_neg (by omega)]
        exact strLt_trans h h'
      · rw [if_neg (by omega), if_pos hbc] at h'
        exact absurd h' (by simp)
    · rw [if_neg (by omega), if_pos hab] at h
      exact absurd h (by simp)

/-! ### `compareDate` and entry ordering (fetcher.ts, lines 460–463) -/

/-- `compareDate(a, b)`: `0` if `a === b`, `-1` if `a < b`, else `1`. -/
def compareDate (a b : List Char) : Int :=
  if a = b then 0 else if strLt a b then -1 else 1

/-- `compareDate a b ≤ 0`, the "a sorts no later than b" relation induced by
the comparator; JS `Array.prototype.sort` (stable per ES2019) with a
consistent comparator sorts by exactly this relation. -/
def dateLe (a b : List Char) : Bool := a == b || strLt a b

theorem dateLe_iff_compareDate (a b : List Char) :
    dateLe a b = true ↔ compareDate a b ≤ 0 := by
  simp only [dateLe, compareDate]
  by_cases h : a = b
  · simp [h]
  · simp only [h, if_false, beq_iff_eq, Bool.or_eq_true, false_or]
    cases hlt : strLt a b <;> simp [hlt]

theorem dateLe_of_compareDate_le {a b : List Char} (h : compareDate a b ≤ 0) :
    dateLe a b = true :=
  (dateLe_iff_compareDate a b).mpr h

theorem dateLe_refl (a : List Char) : dateLe a a = true := by simp [dateLe]

theorem dateLe_total (a b : List Char) : dateLe a b || dateLe b a := by
  simp only [dateLe]
  by_cases h : a = b
  · simp [h]
  · cases hab : strLt a b
    · cases hba : strLt b a
      · exact absurd (strLt_connex hab hba) h
      · simp
    · simp

theorem dateLe_trans {a b c : List Char} :
    dateLe a b = true → dateLe b c = true → dateLe a c = true := by
  simp only [dateLe, Bool.or_eq_true, beq_iff_eq]
  rintro (rfl | hab) (rfl | hbc)
  · simp
  · simp [hbc]
  · simp [hab]
  · simp [strLt_trans hab hbc]

theorem dateLe_antisymm {a b : List Char} :
    dateLe a b = true → dateLe b a = true → a = b := by
  simp only [dateLe, Bool.or_eq_true, beq_iff_eq]
  rintro (rfl | hab) h2
  · rfl
  · rcases h2 with rfl | hba
    · rfl
    · exact absurd hab (by simp [strLt_asymm hba])

/-! ### Data model (fetcher.ts, lines 74–91) -/

/-- `DocumentStatus` as declared in the source:
`'in_force' | 'amended' | 'repealed' | 'not_yet_in_force'`.
Note the declared union has exactly these four members. -/
inductive DocumentStatus where
  | in_force
  | amended
  | repealed
  | not_yet_in_force
deriving DecidableEq, Repr

/-- The member strings of the `DocumentStatus` union type as written in the
source (fetcher.ts line 74). -/
def documentStatusStrings : List (List Char) :=
  ["in_force".data, "amended".data, "repealed".data, "not_yet_in_force".data]

/-- `HistoryEntry` (fetcher.ts lines 86–91). -/
structure HistoryEntry where
  href : List Char
  inForceFrom : List Char
  inForceTo : List Char
  isPromulgatedVersion : Bool
deriving DecidableEq, Repr

/-! ### `selectHistoryEntry` (fetcher.ts, lines 465–494) -/

/-- The filter in `selectHistoryEntry`:
`!entry.isPromulgatedVersion && entry.inForceFrom.length > 0`. -/
def isCandidate (e : HistoryEntry) : Bool :=
  !e.isPromulgatedVersion && decide (0 < e.inForceFrom.length)

/-- Sort comparator lifted to entries:
`(a, b) => compareDate(a.inForceFrom, b.inForceFrom)` ordered as "a no later
than b". -/
def entryLe (a b : HistoryEntry) : Bool := dateLe a.inForceFrom b.inForceFrom

/-- The `active` filter:
`compareDate(entry.inForceFrom, asOfDate) <= 0 &&
 (entry.inForceTo.length === 0 || compareDate(entry.inForceTo, asOfDate) >= 0)`. -/
def isActiveAt (asOfDate : List Char) (e : HistoryEntry) : Bool :=
  decide (compareDate e.inForceFrom asOfDate ≤ 0) &&
    (decide (e.inForceTo.length = 0) || decide (0 ≤ compareDate e.inForceTo asOfDate))

/-- The `future` filter: `compareDate(entry.inForceFrom, asOfDate) > 0`. -/
def isFutureAt (asOfDate : List Char) (e : HistoryEntry) : Bool :=
  decide (0 < compareDate e.inForceFrom asOfDate)

/-- Result record of `selectHistoryEntry`.  The source declares
`firstInForceDate` optional but every return statement populates it, so it is
modelled as a plain field. -/
structure SelectedVersion where
  selected : HistoryEntry
  status : DocumentStatus
  firstInForceDate : List Char
deriving DecidableEq, Repr

/-- `selectHistoryEntry(entries, asOfDate)` (fetcher.ts lines 465–494).
The JS `Array.prototype.sort` with the consistent comparator `compareDate`
is a stable sort by `entryLe`, modelled by `List.mergeSort` (stable).
The `throw` on an empty candidate list is modelled as `Except.error`. -/
def selectHistoryEntry (entries : List HistoryEntry) (asOfDate : List Char) :
    Except (List Char) SelectedVersion :=
  match (entries.filter isCandidate).mergeSort entryLe with
  | [] =>
    .error "No effective (non-promulgated) versions found on history page".data
  | e0 :: rest =>
    match ((e0 :: rest).filter (isActiveAt asOfDate)).getLast? with
    | some lastActive =>
      .ok ⟨lastActive, .in_force, e0.inForceFrom⟩
    | none =>
      match (e0 :: rest).filter (isFutureAt asOfDate) with
      | f0 :: _ => .ok ⟨f0, .not_yet_in_force, f0.inForceFrom⟩
      | [] =>
        .ok ⟨(e0 :: rest).getLast (by simp), .repealed, e0.inForceFrom⟩

/-! ### Order lemmas lifted to entries -/

theorem entryLe_refl (a : HistoryEntry) : entryLe a a = true := dateLe_refl _

theorem entryLe_trans (a b c : HistoryEntry) :
    entryLe a b → entryLe b c → entryLe a c := fun h h' => dateLe_trans h h'

theorem entryLe_total (a b : HistoryEntry) : entryLe a b || entryLe b a :=
  dateLe_total _ _

/-- In a list that is pairwise `entryLe`-sorted, every element is `entryLe`
the last element. -/
theorem entryLe_getLast_of_pairwise :
    ∀ {l : List HistoryEntry}, l.Pairwise (fun a b => entryLe a b = true) →
      ∀ (hne : l ≠ []) (e : HistoryEntry), e ∈ l → entryLe e (l.getLast hne) = true
  | [], _, hne, _, _ => absurd rfl hne
  | [a], _, _, e, he => by
    simp only [List.mem_singleton] at he
    subst he
    exact entryLe_refl _
  | a :: b :: t, hp, _, e, he => by
    rw [List.getLast_cons (by simp)]
    rcases List.mem_cons.mp he with rfl | he
    · exact (List.pairwise_cons.mp hp).1 _ (List.getLast_mem _)
    · exact entryLe_getLast_of_pairwise (List.pairwise_cons.mp hp).2 (by simp) e he

/-- In a list that is pairwise `entryLe`-sorted, the head is `entryLe` every
element. -/
theorem head_entryLe_of_pairwise :
    ∀ {l : List HistoryEntry}, l.Pairwise (fun a b => entryLe a b = true) →
      ∀ (hne : l ≠ []) (e : HistoryEntry), e ∈ l → entryLe (l.head hne) e = true
  | [], _, hne, _, _ => absurd rfl hne
  | a :: t, hp, _, e, he => by
    rw [List.head_cons]
    rcases List.mem_cons.mp he with rfl | he
    · exact entryLe_refl _
    · exact (List.pairwise_cons.mp hp).1 _ he

/-- Stability of the sort, in filter form: if all elements satisfying `q` are
mutually `entryLe` (e.g. they share one `inForceFrom` date), then filtering
the stable sort by `q` yields exactly the `q`-elements in original order. -/
theorem filter_mergeSort_eq_of_mutual (l : List HistoryEntry) (q : HistoryEntry → Bool)
    (hq : ∀ a b, q a = true → q b = true → entryLe a b = true) :
    (l.mergeSort entryLe).filter q = l.filter q := by
  have hp : (l.filter q).Pairwise (fun a b => entryLe a b = true) :=
    List.pairwise_of_forall_mem_list fun a ha b hb =>
      hq a b (List.mem_filter.mp ha).2 (List.mem_filter.mp hb).2
  have h2 : List.Sublist (l.filter q) (l.mergeSort entryLe) :=
    List.sublist_mergeSort entryLe_trans entryLe_total hp (List.filter_sublist l)
  have h3 : List.Sublist ((l.filter q).filter q) ((l.mergeSort entryLe).filter q) :=
    h2.filter q
  rw [List.filter_filter] at h3
  have h4 : (fun a => q a && q a) = q := by funext a; cases q a <;> simp
  rw [h4] at h3
  have h5 : ((l.mergeSort entryLe).filter q).length = (l.filter q).length :=
    ((List.mergeSort_perm l entryLe).filter q).length_eq
  exact (h3.eq_of_length h5.symm).symm

/-- If the last element of `l` satisfies `p`, then the last element of
`l.filter p` is that same element. -/
theorem getLast?_filter_of_getLast_sat {p : α → Bool} :
    ∀ {l : List α} (hne : l ≠ []), p (l.getLast hne) = true →
      (l.filter p).getLast? = some (l.getLast hne)
  | [], hne, _ => absurd rfl hne
  | [a], _, hsat => by
    simp only [List.getLast_singleton] at hsat
    simp [List.filter_cons, hsat]
  | a :: b :: t, _, hsat => by
    rw [List.getLast_cons (by simp)] at hsat ⊢
    have ih := getLast?_filter_of_getLast_sat (l := b :: t) (by simp) hsat
    rw [List.filter_cons]
    split
    · have hne2 : (b :: t).filter p ≠ [] := by
        intro hnil
        rw [hnil] at ih
        simp at ih
      rw [← ih]
      cases hfil : (b :: t).filter p with
      | nil => exact absurd hfil hne2
      | cons x xs => simp
    · exact ih

/-- The sorted candidate list inside `selectHistoryEntry`. -/
def sortedCandidates (entries : List HistoryEntry) : List HistoryEntry :=
  (entries.filter isCandidate).mergeSort entryLe

theorem sortedCandidates_pairwise (entries : List HistoryEntry) :
    (sortedCandidates entries).Pairwise (fun a b => entryLe a b = true) :=
  List.sorted_mergeSort entryLe_trans entryLe_total _

theorem mem_sortedCandidates {entries : List HistoryEntry} {e : HistoryEntry} :
    e ∈ sortedCandidates entries ↔ e ∈ entries.filter isCandidate :=
  List.mem_mergeSort

/-- **C1.**  Whenever at least one candidate (non-promulgated, non-empty
in-force-from) is active at the reference date, `selectHistoryEntry` returns
the last active candidate of the stable-sorted candidate list with status
`in_force`; it is a latest-starting active candidate, and among active
candidates sharing its in-force-from date it is the last one in original
document order. -/
theorem selectHistoryEntry_active_spec (entries : List HistoryEntry) (asOfDate : List Char)
    (hne : (sortedCandidates entries).filter (isActiveAt asOfDate) ≠ []) :
    ∃ sel : SelectedVersion,
      selectHistoryEntry entries asOfDate = .ok sel ∧
      sel.status = .in_force ∧
      sel.selected = ((sortedCandidates entries).filter (isActiveAt asOfDate)).getLast hne ∧
      (∀ e ∈ (entries.filter isCandidate).filter (isActiveAt asOfDate),
        dateLe e.inForceFrom sel.selected.inForceFrom = true) ∧
      ((entries.filter isCandidate).filter
          (fun e => isActiveAt asOfDate e && (e.inForceFrom == sel.selected.inForceFrom))).getLast?
        = some sel.selected := by
  have hsne : sortedCandidates entries ≠ [] := by
    intro h
    rw [h] at hne
    exact hne rfl
  obtain ⟨e0, rest, hs⟩ : ∃ e0 rest, sortedCandidates entries = e0 :: rest := by
    cases h : sortedCandidates entries with
    | nil => exact absurd h hsne
    | cons x xs => exact ⟨x, xs, rfl⟩
  have hact : ((e0 :: rest).filter (isActiveAt asOfDate)).getLast?
      = some (((sortedCandidates entries).filter (isActiveAt asOfDate)).getLast hne) := by
    simp only [← hs]
    exact List.getLast?_eq_getLast _ hne
  set L := ((sortedCandidates entries).filter (isActiveAt asOfDate)).getLast hne with hL
  refine ⟨⟨L, .in_force, e0.inForceFrom⟩, ?_, rfl, rfl, ?_, ?_⟩
  · unfold selectHistoryEntry
    rw [show (entries.filter isCandidate).mergeSort entryLe = e0 :: rest from hs]
    simp only [hact]
  · -- maximality of the selected start date among active candidates
    intro e he
    have hmemL : L ∈ (sortedCandidates entries).filter (isActiveAt asOfDate) :=
      List.getLast_mem _
    have hpair : ((sortedCandidates entries).filter (isActiveAt asOfDate)).Pairwise
        (fun a b => entryLe a b = true) :=
      (sortedCandidates_pairwise entries).sublist (List.filter_sublist _)
    have hmem : e ∈ (sortedCandidates entries).filter (isActiveAt asOfDate) := by
      rw [List.mem_filter] at he ⊢
      exact ⟨mem_sortedCandidates.mpr he.1, he.2⟩
    exact entryLe_getLast_of_pairwise hpair hne e hmem
  · -- stability: last-in-document-order among active candidates with the
    -- selected in-force-from date
    have hqmut : ∀ a b,
        (isActiveAt asOfDate a && (a.inForceFrom == L.inForceFrom)) = true →
        (isActiveAt asOfDate b && (b.inForceFrom == L.inForceFrom)) = true →
        entryLe a b = true := by
      intro a b ha hb
      simp only [Bool.and_eq_true, beq_iff_eq] at ha hb
      unfold entryLe
      rw [ha.2, hb.2]
      exact dateLe_refl _
    have hstep1 := filter_mergeSort_eq_of_mutual (entries.filter isCandidate)
      (fun e => isActiveAt asOfDate e && (e.inForceFrom == L.inForceFrom)) hqmut
    have hstep2 : ((sortedCandidates entries).filter
        (fun e => isActiveAt asOfDate e && (e.inForceFrom == L.inForceFrom)))
        = ((sortedCandidates entries).filter (isActiveAt asOfDate)).filter
            (fun e => e.inForceFrom == L.inForceFrom) := by
      rw [List.filter_filter]
      congr 1
      funext e
      rw [Bool.and_comm]
    have hstep3 : (((sortedCandidates entries).filter (isActiveAt asOfDate)).filter
        (fun e => e.inForceFrom == L.inForceFrom)).getLast? = some L :=
      getLast?_filter_of_getLast_sat hne (by rw [← hL]; exact beq_self_eq_true _)
    calc ((entries.filter isCandidate).filter
            (fun e => isActiveAt asOfDate e && (e.inForceFrom == L.inForceFrom))).getLast?
        = ((sortedCandidates entries).filter
            (fun e => isActiveAt asOfDate e && (e.inForceFrom == L.inForceFrom))).getLast? := by
          rw [sortedCandidates, hstep1]
      _ = some L := by rw [hstep2, hstep3]

/-- **C2.**  When no candidate is active at the reference date:
if some candidate starts strictly after the reference date, the earliest such
candidate is selected with status `not_yet_in_force` and its own
in-force-from is reported as `firstInForceDate`; otherwise the last candidate
in sorted order is selected with status `repealed` and `firstInForceDate` is
the earliest candidate in-force-from. -/
theorem selectHistoryEntry_inactive_spec (entries : List HistoryEntry) (asOfDate : List Char)
    (hcand : sortedCandidates entries ≠ [])
    (hact : (sortedCandidates entries).filter (isActiveAt asOfDate) = []) :
    ∃ sel : SelectedVersion,
      selectHistoryEntry entries asOfDate = .ok sel ∧
      ((sortedCandidates entries).filter (isFutureAt asOfDate) ≠ [] →
        sel.status = .not_yet_in_force ∧
        sel.selected ∈ entries.filter isCandidate ∧
        isFutureAt asOfDate sel.selected = true ∧
        (∀ e ∈ entries.filter isCandidate, isFutureAt asOfDate e = true →
          dateLe sel.selected.inForceFrom e.inForceFrom = true) ∧
        sel.firstInForceDate = sel.selected.inForceFrom) ∧
      ((sortedCandidates entries).filter (isFutureAt asOfDate) = [] →
        sel.status = .repealed ∧
        sel.selected = (sortedCandidates entries).getLast hcand ∧
        sel.firstInForceDate = ((sortedCandidates entries).head hcand).inForceFrom ∧
        (∀ e ∈ entries.filter isCandidate,
          dateLe sel.firstInForceDate e.inForceFrom = true)) := by
  obtain ⟨e0, rest, hs⟩ : ∃ e0 rest, sortedCandidates entries = e0 :: rest := by
    cases h : sortedCandidates entries with
    | nil => exact absurd h hcand
    | cons x xs => exact ⟨x, xs, rfl⟩
  have hactnil : ((e0 :: rest).filter (isActiveAt asOfDate)).getLast? = none := by
    rw [← hs, hact]
    rfl
  cases hfut : (e0 :: rest).filter (isFutureAt asOfDate) with
  | cons f0 ft =>
    refine ⟨⟨f0, .not_yet_in_force, f0.inForceFrom⟩, ?_, ?_, ?_⟩
    · unfold selectHistoryEntry
      rw [show (entries.filter isCandidate).mergeSort entryLe = e0 :: rest from hs]
      simp only [hactnil, hfut]
    · intro _
      have hf0mem : f0 ∈ (sortedCandidates entries).filter (isFutureAt asOfDate) := by
        rw [hs, hfut]
        exact List.mem_cons_self _ _
      have hf0mem' := List.mem_filter.mp hf0mem
      refine ⟨rfl, mem_sortedCandidates.mp hf0mem'.1, hf0mem'.2, ?_, rfl⟩
      intro e he hef
      have hpair : ((sortedCandidates entries).filter (isFutureAt asOfDate)).Pairwise
          (fun a b => entryLe a b = true) :=
        (sortedCandidates_pairwise entries).sublist (List.filter_sublist _)
      have hhead : ((sortedCandidates entries).filter (isFutureAt asOfDate)).head
          (by rw [hs, hfut]; simp) = f0 := by
        have h0 : ((sortedCandidates entries).filter (isFutureAt asOfDate)).head?
            = (f0 :: ft).head? := by rw [hs, hfut]
        have h1 := List.head?_eq_head
          (l := (sortedCandidates entries).filter (isFutureAt asOfDate))
          (by rw [hs, hfut]; simp)
        rw [h0, List.head?_cons] at h1
        exact (Option.some.inj h1).symm
      have hemem : e ∈ (sortedCandidates entries).filter (isFutureAt asOfDate) :=
        List.mem_filter.mpr ⟨mem_sortedCandidates.mpr he, hef⟩
      have := head_entryLe_of_pairwise hpair (by rw [hs, hfut]; simp) e hemem
      rw [hhead] at this
      exact this
    · intro h
      rw [hs, hfut] at h
      simp at h
  | nil =>
    refine ⟨⟨(e0 :: rest).getLast (by simp), .repealed, e0.inForceFrom⟩, ?_, ?_, ?_⟩
    · unfold selectHistoryEntry
      rw [show (entries.filter isCandidate).mergeSort entryLe = e0 :: rest from hs]
      simp only [hactnil, hfut]
    · intro h
      rw [hs, hfut] at h
      simp at h
    · intro _
      have hlast : (sortedCandidates entries).getLast hcand
          = (e0 :: rest).getLast (by simp) := by
        have h0 : (sortedCandidates entries).getLast? = (e0 :: rest).getLast? := by rw [hs]
        have h1 := List.getLast?_eq_getLast (sortedCandidates entries) hcand
        rw [h0, List.getLast?_eq_getLast (e0 :: rest) (by simp)] at h1
        exact (Option.some.inj h1).symm
      have hhead : (sortedCandidates entries).head hcand = e0 := by
        have h0 : (sortedCandidates entries).head? = (e0 :: rest).head? := by rw [hs]
        have h1 := List.head?_eq_head (l := sortedCandidates entries) hcand
        rw [h0, List.head?_cons] at h1
        exact (Option.some.inj h1).symm
      refine ⟨rfl, hlast.symm, by rw [hhead], ?_⟩
      intro e he
      have := head_entryLe_of_pairwise (sortedCandidates_pairwise entries) hcand e
        (mem_sortedCandidates.mpr he)
      rw [hhead] at this
      exact this

/-- **C9.**  Whenever `selectHistoryEntry` returns (does not throw), the
returned status is `in_force`, `not_yet_in_force` or `repealed`; `amended` is
never produced (and `unknown` is not even a member of the declared
`DocumentStatus` union, see `documentStatusStrings`). -/
theorem selectHistoryEntry_status_range (entries : List HistoryEntry) (asOfDate : List Char)
    (sel : SelectedVersion) (h : selectHistoryEntry entries asOfDate = .ok sel) :
    sel.status = .in_force ∨ sel.status = .not_yet_in_force ∨ sel.status = .repealed := by
  unfold selectHistoryEntry at h
  rcases hs : (entries.filter isCandidate).mergeSort entryLe with _ | ⟨e0, rest⟩ <;>
    rw [hs] at h
  · simp at h
  · rcases hg : ((e0 :: rest).filter (isActiveAt asOfDate)).getLast? with _ | la <;>
      simp only [hg] at h
    · rcases hf : (e0 :: rest).filter (isFutureAt asOfDate) with _ | ⟨f0, ft⟩ <;>
        simp only [hf, Except.ok.injEq] at h <;> subst h <;> simp
    · simp only [Except.ok.injEq] at h
      subst h
      simp

/-! #### Concrete witnesses for the `selectHistoryEntry` theorems -/

/-- A concrete history entry used by the witnesses. -/
def wEntry : HistoryEntry :=
  ⟨"20200101.html".data, "2020-01-01".data, [], false⟩

theorem wEntry_sortedCandidates : sortedCandidates [wEntry] = [wEntry] := by
  have hfil : List.filter isCandidate [wEntry] = [wEntry] := by decide
  unfold sortedCandidates
  rw [hfil, List.mergeSort_singleton]

theorem selectHistoryEntry_active_spec_witness :
    ∃ sel : SelectedVersion,
      selectHistoryEntry [wEntry] "2024-06-01".data = .ok sel ∧
      sel.status = .in_force := by
  have hne : (sortedCandidates [wEntry]).filter (isActiveAt "2024-06-01".data) ≠ [] := by
    rw [wEntry_sortedCandidates]
    decide
  obtain ⟨sel, h1, h2, -⟩ := selectHistoryEntry_active_spec [wEntry] "2024-06-01".data hne
  exact ⟨sel, h1, h2⟩

theorem selectHistoryEntry_inactive_spec_witness :
    ∃ sel : SelectedVersion,
      selectHistoryEntry [wEntry] "2000-01-01".data = .ok sel ∧
      sel.status = .not_yet_in_force := by
  have hcand : sortedCandidates [wEntry] ≠ [] := by
    rw [wEntry_sortedCandidates]
    decide
  have hact : (sortedCandidates [wEntry]).filter (isActiveAt "2000-01-01".data) = [] := by
    rw [wEntry_sortedCandidates]
    decide
  obtain ⟨sel, h1, h2, -⟩ := selectHistoryEntry_inactive_spec [wEntry] "2000-01-01".data hcand hact
  have hfut : (sortedCandidates [wEntry]).filter (isFutureAt "2000-01-01".data) ≠ [] := by
    rw [wEntry_sortedCandidates]
    decide
  exact ⟨sel, h1, (h2 hfut).1⟩

theorem selectHistoryEntry_status_range_witness :
    selectHistoryEntry [wEntry] "2024-06-01".data
      = .ok ⟨wEntry, .in_force, "2020-01-01".data⟩ ∧
    (DocumentStatus.in_force = .in_force ∨ DocumentStatus.in_force = .not_yet_in_force ∨
      DocumentStatus.in_force = .repealed) := by
  have hok : selectHistoryEntry [wEntry] "2024-06-01".data
      = .ok ⟨wEntry, .in_force, "2020-01-01".data⟩ := by
    unfold selectHistoryEntry
    have hfil : List.filter isCandidate [wEntry] = [wEntry] := by decide
    rw [hfil, List.mergeSort_singleton]
    rfl
  exact ⟨hok, selectHistoryEntry_status_range [wEntry] "2024-06-01".data _ hok⟩

/-! ### Text normalizer (fetcher.ts, lines 237–297)

JS regex `\s` is modelled by `jsWs`; JS `String.prototype.trim` removes the
same class.  All functions operate on `List Char`. -/

/-- The JS `\s` character class (WhiteSpace ∪ LineTerminator). -/
def jsWs (c : Char) : Bool :=
  c.toNat = 0x9 || c.toNat = 0xa || c.toNat = 0xb || c.toNat = 0xc || c.toNat = 0xd ||
  c.toNat = 0x20 || c.toNat = 0xa0 || c.toNat = 0x1680 ||
  (0x2000 ≤ c.toNat && c.toNat ≤ 0x200a) ||
  c.toNat = 0x2028 || c.toNat = 0x2029 || c.toNat = 0x202f || c.toNat = 0x205f ||
  c.toNat = 0x3000 || c.toNat = 0xfeff

/-- `input.replace(/\s+/g, ' ')`: every maximal whitespace run becomes one
space. -/
def collapseWs : List Char → List Char
  | [] => []
  | c :: rest =>
    if jsWs c then ' ' :: collapseWs (rest.dropWhile jsWs)
    else c :: collapseWs rest
termination_by s => s.length
decreasing_by
  · simp only [List.length_cons]
    have := (List.dropWhile_sublist jsWs (l := rest)).length_le
    omega
  · simp

/-- JS `String.prototype.trim`. -/
def jsTrim (s : List Char) : List Char :=
  ((s.dropWhile jsWs).reverse.dropWhile jsWs).reverse

/-- `normalizeWhitespace` (fetcher.ts lines 259–261). -/
def normalizeWhitespace (s : List Char) : List Char := jsTrim (collapseWs s)

def isSpTab (c : Char) : Bool := c = ' ' || c = '\t'

/-- `input.replace(/[ \t]+\n/g, '\n')`: a maximal space/tab run directly
followed by a newline is dropped (the newline is kept). -/
def replSpTabNl : List Char → List Char
  | [] => []
  | c :: rest =>
    if isSpTab c ∧ ((c :: rest).dropWhile isSpTab).head? = some '\n' then
      '\n' :: replSpTabNl ((c :: rest).dropWhile isSpTab).tail
    else c :: replSpTabNl rest
termination_by s => s.length
decreasing_by
  · have h1 := (List.dropWhile_sublist isSpTab (l := c :: rest)).length_le
    have h2 := List.length_tail ((c :: rest).dropWhile isSpTab)
    simp only [List.length_cons] at h1 ⊢
    omega
  · simp

/-- `normalizeLine` (fetcher.ts lines 263–265). -/
def normalizeLine (s : List Char) : List Char := normalizeWhitespace (replSpTabNl s)

/-- `input.replace(pat, rep)` for a literal pattern with the `g` flag:
leftmost, non-overlapping, replacement text is not rescanned. -/
def replaceAllLit (pat rep : List Char) : List Char → List Char
  | [] => []
  | c :: rest =>
    if pat.isPrefixOf (c :: rest) ∧ 0 < pat.length then
      rep ++ replaceAllLit pat rep (List.drop (pat.length - 1) rest)
    else
      c :: replaceAllLit pat rep rest
termination_by s => s.length
decreasing_by
  · simp only [List.length_cons]
    have := List.length_drop (pat.length - 1) rest
    omega
  · simp

def isDigitCh (c : Char) : Bool := '0' ≤ c && c ≤ '9'

def isHexCh (c : Char) : Bool :=
  ('0' ≤ c && c ≤ '9') || ('a' ≤ c && c ≤ 'f') || ('A' ≤ c && c ≤ 'F')

def digitVal (c : Char) : Nat := c.toNat - '0'.toNat

def hexVal (c : Char) : Nat :=
  if '0' ≤ c && c ≤ '9' then c.toNat - '0'.toNat
  else if 'a' ≤ c && c ≤ 'f' then c.toNat - 'a'.toNat + 10
  else c.toNat - 'A'.toNat + 10

def digitsToNat (ds : List Char) : Nat := ds.foldl (fun n c => 10 * n + digitVal c) 0

def hexToNat (ds : List Char) : Nat := ds.foldl (fun n c => 16 * n + hexVal c) 0

/-- `String.fromCodePoint(n)` for a Unicode scalar value.  For a surrogate or
out-of-range code point (where JS would emit a lone surrogate resp. throw)
the entity is left undecoded; no claim exercises such inputs. -/
def codePointChars (n : Nat) : Option (List Char) :=
  if h : n < 0xd800 ∨ (0xe000 ≤ n ∧ n < 0x110000) then
    some [⟨⟨⟨n, by rcases h with h | h <;> omega⟩⟩,
      by rcases h with h | h <;> simp [UInt32.isValidChar, Nat.isValidChar, UInt32.toNat, BitVec.toNat] <;> omega⟩]
  else none

/-- `.replace(/&#(\d+);/g, …fromCodePoint…)`. -/
def decodeDecEntities : List Char → List Char
  | [] => []
  | '&' :: '#' :: rest =>
    if 0 < (rest.takeWhile isDigitCh).length ∧ (rest.dropWhile isDigitCh).head? = some ';' then
      match codePointChars (digitsToNat (rest.takeWhile isDigitCh)) with
      | some cs => cs ++ decodeDecEntities (rest.dropWhile isDigitCh).tail
      | none =>
        '&' :: '#' :: ((rest.takeWhile isDigitCh) ++
          ';' :: decodeDecEntities (rest.dropWhile isDigitCh).tail)
    else '&' :: decodeDecEntities ('#' :: rest)
  | c :: rest => c :: decodeDecEntities rest
termination_by s => s.length
decreasing_by
  all_goals first
    | (have h1 := (List.dropWhile_sublist isDigitCh (l := rest)).length_le
       have h2 := List.length_tail (rest.dropWhile isDigitCh)
       simp only [List.length_cons] at h1 ⊢
       omega)
    | (simp only [List.length_cons]
       omega)
    | simp

/-- `.replace(/&#x([0-9a-fA-F]+);/g, …fromCodePoint…)`. -/
def decodeHexEntities : List Char → List Char
  | [] => []
  | '&' :: '#' :: 'x' :: rest =>
    if 0 < (rest.takeWhile isHexCh).length ∧ (rest.dropWhile isHexCh).head? = some ';' then
      match codePointChars (hexToNat (rest.takeWhile isHexCh)) with
      | some cs => cs ++ decodeHexEntities (rest.dropWhile isHexCh).tail
      | none =>
        '&' :: '#' :: 'x' :: ((rest.takeWhile isHexCh) ++
          ';' :: decodeHexEntities (rest.dropWhile isHexCh).tail)
    else '&' :: decodeHexEntities ('#' :: 'x' :: rest)
  | c :: rest => c :: decodeHexEntities rest
termination_by s => s.length
decreasing_by
  all_goals first
    | (have h1 := (List.dropWhile_sublist isHexCh (l := rest)).length_le
       have h2 := List.length_tail (rest.dropWhile isHexCh)
       simp only [List.length_cons] at h1 ⊢
       omega)
    | (simp only [List.length_cons]
       omega)
    | simp

/-- `decodeHtmlEntities` (fetcher.ts lines 237–250): the nine literal
replacements in source order, then decimal, then hex numeric references. -/
def decodeHtmlEntities (s : List Char) : List Char :=
  decodeHexEntities (decodeDecEntities
    (replaceAllLit "&hellip;".data "...".data
      (replaceAllLit "&mdash;".data "-".data
        (replaceAllLit "&ndash;".data "-".data
          (replaceAllLit "&gt;".data ">".data
            (replaceAllLit "&lt;".data "<".data
              (replaceAllLit "&#39;".data "'".data
                (replaceAllLit "&quot;".data "\"".data
                  (replaceAllLit "&amp;".data "&".data
                    (replaceAllLit "&nbsp;".data " ".data s))))))))))

/-- Closing part of a `<br>` tag: `\s*` already consumed; accepts
`>` or `/\s*>`. -/
def brClose : List Char → Option (List Char)
  | c :: t =>
    if c = '>' then some t
    else if c = '/' then
      if (t.dropWhile jsWs).head? = some '>' then some (t.dropWhile jsWs).tail else none
    else none
  | [] => none

theorem brClose_length_lt {s tail : List Char} (h : brClose s = some tail) :
    tail.length < s.length := by
  match s with
  | [] => simp [brClose] at h
  | c :: t =>
    simp only [brClose] at h
    split at h
    · simp only [Option.some.injEq] at h
      subst h
      simp
    · split at h
      · split at h
        · simp only [Option.some.injEq] at h
          subst h
          have h1 := (List.dropWhile_sublist jsWs (l := t)).length_le
          have h2 := List.length_tail (t.dropWhile jsWs)
          simp only [List.length_cons]
          omega
        · simp at h
      · simp at h

/-- Match `/<br\s*\/?\s*>/i` at the head of the input; returns the remainder
after the match. -/
def matchBrAt : List Char → Option (List Char)
  | a :: b :: r :: rest =>
    if a = '<' ∧ (b = 'b' ∨ b = 'B') ∧ (r = 'r' ∨ r = 'R') then
      brClose (rest.dropWhile jsWs)
    else none
  | _ => none

theorem matchBrAt_length_lt {s tail : List Char} (h : matchBrAt s = some tail) :
    tail.length < s.length := by
  match s with
  | [] => simp [matchBrAt] at h
  | [a] => simp [matchBrAt] at h
  | [a, b] => simp [matchBrAt] at h
  | a :: b :: r :: rest =>
    simp only [matchBrAt] at h
    split at h
    · have h1 := (List.dropWhile_sublist jsWs (l := rest)).length_le
      have h2 := brClose_length_lt h
      simp only [List.length_cons]
      omega
    · simp at h

/-- `.replace(/<br\s*\/?\s*>/gi, '\n')`. -/
def replaceBr : List Char → List Char
  | [] => []
  | c :: rest =>
    if h : (matchBrAt (c :: rest)).isSome then
      '\n' :: replaceBr ((matchBrAt (c :: rest)).get h)
    else c :: replaceBr rest
termination_by s => s.length
decreasing_by
  · have := matchBrAt_length_lt (Option.some_get h).symm
    simp only [List.length_cons] at this ⊢
    omega
  · simp

/-- `.replace(/<[^>]+>/g, ' ')`. -/
def removeTags : List Char → List Char
  | [] => []
  | c :: rest =>
    if c = '<' ∧ 0 < (rest.takeWhile (· ≠ '>')).length ∧
        (rest.dropWhile (· ≠ '>')).head? = some '>' then
      ' ' :: removeTags (rest.dropWhile (· ≠ '>')).tail
    else c :: removeTags rest
termination_by s => s.length
decreasing_by
  all_goals first
    | (have h1 := (List.dropWhile_sublist (fun x => decide (x ≠ '>')) (l := rest)).length_le
       have h2 := List.length_tail (rest.dropWhile (· ≠ '>'))
       simp only [List.length_cons] at h1 ⊢
       omega)
    | simp

/-- `stripTags` (fetcher.ts lines 252–257): decode entities, `<br>` to
newline, remove tags, non-breaking space (U+00A0) to space — in that order. -/
def stripTags (s : List Char) : List Char :=
  (removeTags (replaceBr (decodeHtmlEntities s))).map
    (fun c => if c.toNat = 0xa0 then ' ' else c)

/-- **C10.**  `stripTags` decodes HTML entities before removing tags: the
input `"a &lt;b&gt; c"` contains no literal angle bracket, yet the decoded
`<b>` is subsequently removed as if it were a tag, so `b` does not appear in
the output. -/
theorem stripTags_decodes_before_removing :
    '<' ∉ "a &lt;b&gt; c".data ∧ '>' ∉ "a &lt;b&gt; c".data ∧
    stripTags "a &lt;b&gt; c".data = "a   c".data ∧
    'b' ∉ stripTags "a &lt;b&gt; c".data := by
  have hval : stripTags "a &lt;b&gt; c".data = "a   c".data := by
    simp only [stripTags, decodeHtmlEntities]
    simp +decide [replaceAllLit, decodeDecEntities, decodeHexEntities,
      isDigitCh, isHexCh, replaceBr, matchBrAt, brClose, removeTags, jsWs]
  refine ⟨by decide, by decide, hval, ?_⟩
  rw [hval]
  decide

/-! ### `TargetLaw`, parsed records, and the metadata-only act
(fetcher.ts lines 76–120, ingest.ts lines 191–206) -/

/-- `TargetLaw` (fetcher.ts lines 76–84).  The catalog-discovery path in the
parser extends it with an optional `catalogTitle`, which `ingest.ts`
(line 192) reads; it is modelled as an optional field. -/
structure TargetLaw where
  id : List Char
  year : Nat
  number : Nat
  seedFile : List Char
  titleEn : List Char
  shortName : List Char
  description : List Char
  catalogTitle : Option (List Char) := none
deriving DecidableEq, Repr

/-- `ParsedProvision` (fetcher.ts lines 93–99). -/
structure ParsedProvision where
  provision_ref : List Char
  chapter : Option (List Char)
  /-- the source's `section` field (`section` is a reserved word in Lean) -/
  section_ : List Char
  title : List Char
  content : List Char
deriving DecidableEq, Repr

/-- `ParsedDefinition` (fetcher.ts lines 101–105). -/
structure ParsedDefinition where
  term : List Char
  definition : List Char
  source_provision : List Char
deriving DecidableEq, Repr

/-- The runtime (type-erased) view of a `ParsedAct` record: the `status`
field holds the string actually stored, which for the metadata-only act is
`"unknown"` even though the declared `DocumentStatus` union does not contain
that string. -/
structure ActRecord where
  id : List Char
  type : List Char
  title : List Char
  title_en : List Char
  short_name : List Char
  status : List Char
  url : List Char
  description : List Char
  provisions : List ParsedProvision
  definitions : List ParsedDefinition
deriving DecidableEq, Repr

/-- `buildMetadataOnlyAct` (ingest.ts lines 191–206).  JS
`law.catalogTitle ?? law.shortName` and `law.titleEn || title` (empty string
is falsy) are modelled explicitly. -/
def buildMetadataOnlyAct (law : TargetLaw) : ActRecord :=
  let title := law.catalogTitle.getD law.shortName
  { id := law.id
    type := "statute".data
    title := title
    title_en := if 0 < law.titleEn.length then law.titleEn else title
    short_name := law.shortName
    status := "unknown".data
    url := "https://www.slov-lex.sk/ezbierky/pravne-predpisy/SK/ZZ/".data
      ++ (Nat.repr law.year).data ++ "/".data ++ (Nat.repr law.number).data ++ "/".data
    description := law.description
    provisions := []
    definitions := [] }

/-- **C4.**  The `DocumentStatus` union declared in the source has exactly
four members (`in_force`, `amended`, `repealed`, `not_yet_in_force`) — it
does **not** contain `unknown` — while `buildMetadataOnlyAct` assigns the
status string `"unknown"` to every metadata-only act record.  The claim's
five-value enumeration matches the intent (the README documents an
`unknown` status bucket), so the four-value type declaration is the slip. -/
theorem buildMetadataOnlyAct_status_outside_union (law : TargetLaw) :
    (buildMetadataOnlyAct law).status = "unknown".data ∧
    "unknown".data ∉ documentStatusStrings := by
  exact ⟨rfl, by decide⟩

/-! ### A small backtracking matcher for the parser's regular expressions

Each regex in the source is transliterated token by token; the matcher
implements JS semantics: greedy character classes backtrack from the longest
consumption, `[\s\S]*?` is lazy (shortest first), alternations try branches
left to right, `(?:…)?` prefers the present branch, and an unmatched
optional group's captures are `none` (JS `undefined`). -/

/-- Unicode simple case folding restricted to the alphabet appearing in this
pipeline: ASCII letters plus the Slovak accented capitals.  This models both
the `i` regex flag and `String.prototype.toLowerCase` on the data in play. -/
def foldLower (c : Char) : Char :=
  if 'A' ≤ c ∧ c ≤ 'Z' then Char.ofNat (c.toNat + 32)
  else if c = 'Á' then 'á' else if c = 'Ä' then 'ä' else if c = 'Č' then 'č'
  else if c = 'Ď' then 'ď' else if c = 'É' then 'é' else if c = 'Í' then 'í'
  else if c = 'Ĺ' then 'ĺ' else if c = 'Ľ' then 'ľ' else if c = 'Ň' then 'ň'
  else if c = 'Ó' then 'ó' else if c = 'Ô' then 'ô' else if c = 'Ŕ' then 'ŕ'
  else if c = 'Š' then 'š' else if c = 'Ť' then 'ť' else if c = 'Ú' then 'ú'
  else if c = 'Ý' then 'ý' else if c = 'Ž' then 'ž'
  else c

def charEqCI (a b : Char) : Bool := a == b || foldLower a == foldLower b

def isPrefixOfCI : List Char → List Char → Bool
  | [], _ => true
  | _ :: _, [] => false
  | a :: as, b :: bs => charEqCI a b && isPrefixOfCI as bs

/-- Pattern tokens.  `capAltCI` captures the matched input slice (not the
pattern literal), as JS does. -/
inductive Tok where
  | lit (s : List Char)
  | litCI (s : List Char)
  | many (p : Char → Bool)
  | lazyNC
  | capOne (p : Char → Bool)
  | capMany (p : Char → Bool)
  | capMany1 (p : Char → Bool)
  | capLitMany1 (pre : List Char) (p : Char → Bool)
  | capLazy
  | capAltCI (alts : List (List Char))
  | opt (inner : List Tok)

mutual

def tokSize : Tok → Nat
  | .capAltCI alts => 2 + alts.length
  | .opt inner => 2 + toksSize inner
  | _ => 2

def toksSize : List Tok → Nat
  | [] => 0
  | t :: ts => tokSize t + toksSize ts

end

theorem toksSize_append (a b : List Tok) :
    toksSize (a ++ b) = toksSize a + toksSize b := by
  induction a with
  | nil => simp [toksSize]
  | cons t ts ih => simp [toksSize, ih]; omega

mutual

def tokCaps : Tok → Nat
  | .capOne _ => 1
  | .capMany _ => 1
  | .capMany1 _ => 1
  | .capLitMany1 _ _ => 1
  | .capLazy => 1
  | .capAltCI _ => 1
  | .opt inner => toksCaps inner
  | _ => 0

def toksCaps : List Tok → Nat
  | [] => 0
  | t :: ts => tokCaps t + toksCaps ts

end

/-- A match result: the captures in group order, and the input remaining
after the match. -/
abbrev MatchRes := List (Option (List Char)) × List Char

theorem length_takeWhile_add_dropWhile (q : Char → Bool) (l : List Char) :
    (l.takeWhile q).length + (l.dropWhile q).length = l.length := by
  rw [← List.length_append, List.takeWhile_append_dropWhile]

mutual

/-- Match a token list at the start of the input (anchored), with
backtracking. -/
def matchToks : List Tok → List Char → Option MatchRes
  | [], s => some ([], s)
  | .lit p :: ts, s =>
    if p.isPrefixOf s then matchToks ts (s.drop p.length) else none
  | .litCI p :: ts, s =>
    if isPrefixOfCI p s then matchToks ts (s.drop p.length) else none
  | .many p :: ts, s => greedyTry ts (s.takeWhile p) (s.dropWhile p)
  | .lazyNC :: ts, s => lazyTry ts s
  | .capOne p :: ts, s =>
    match s with
    | [] => none
    | c :: r =>
      if p c then (matchToks ts r).map (fun pr => (some [c] :: pr.1, pr.2)) else none
  | .capMany p :: ts, s => capGreedyTry ts [] (s.takeWhile p) (s.dropWhile p)
  | .capMany1 p :: ts, s =>
    match s with
    | [] => none
    | c :: r =>
      if p c then capGreedyTry ts [c] (r.takeWhile p) (r.dropWhile p) else none
  | .capLitMany1 pre p :: ts, s =>
    if pre.isPrefixOf s ∧ ((s.drop pre.length).head?.map p).getD false then
      capGreedyTry ts (pre ++ (s.drop pre.length).take 1)
        ((s.drop pre.length).tail.takeWhile p) ((s.drop pre.length).tail.dropWhile p)
    else none
  | .capLazy :: ts, s => capLazyTry ts [] s
  | .capAltCI alts :: ts, s => altTry ts alts s
  | .opt inner :: ts, s =>
    (matchToks (inner ++ ts) s) <|>
      ((matchToks ts s).map (fun pr => (List.replicate (toksCaps inner) none ++ pr.1, pr.2)))
termination_by ts s => s.length + 3 * toksSize ts
decreasing_by
  all_goals
    (first
    | (simp only [toksSize, tokSize, toksSize_append, List.length_cons, List.length_append,
         List.length_drop]
       omega)
    | (have h1 := length_takeWhile_add_dropWhile p s
       simp only [toksSize, tokSize, List.length_cons] at h1 ⊢
       omega)
    | (have h1 := length_takeWhile_add_dropWhile p r
       simp only [toksSize, tokSize, List.length_cons] at h1 ⊢
       omega)
    | (have h1 := length_takeWhile_add_dropWhile p rest
       simp only [toksSize, tokSize, List.length_cons] at h1 ⊢
       omega)
    | (have h1 := length_takeWhile_add_dropWhile p (List.tail (List.drop pre.length s))
       have h2 := List.length_tail (List.drop pre.length s)
       have h3 := List.length_drop pre.length s
       simp only [toksSize, tokSize, List.length_cons] at h1 h2 h3 ⊢
       omega))

/-- Greedy star: the maximal run is `run`; prefer consuming all of it,
backing off one character at a time. -/
def greedyTry (ts : List Tok) (run rest : List Char) : Option MatchRes :=
  match run with
  | [] => matchToks ts rest
  | c :: run' => (greedyTry ts run' rest) <|> matchToks ts (c :: run' ++ rest)
termination_by run.length + rest.length + 3 * toksSize ts + 2
decreasing_by
  all_goals (try simp only [List.length_cons, List.length_append])
  all_goals omega

/-- Greedy capturing star; `pre` is the part already committed to the
capture. -/
def capGreedyTry (ts : List Tok) (pre run rest : List Char) : Option MatchRes :=
  match run with
  | [] => (matchToks ts rest).map (fun pr => (some pre :: pr.1, pr.2))
  | c :: run' =>
    (capGreedyTry ts (pre ++ [c]) run' rest) <|>
      ((matchToks ts (c :: run' ++ rest)).map (fun pr => (some pre :: pr.1, pr.2)))
termination_by run.length + rest.length + 3 * toksSize ts + 2
decreasing_by
  all_goals (try simp only [List.length_cons, List.length_append])
  all_goals omega

/-- Lazy `[\s\S]*?`: shortest consumption first. -/
def lazyTry (ts : List Tok) (s : List Char) : Option MatchRes :=
  (matchToks ts s) <|>
    (match s with
     | [] => none
     | _ :: r => lazyTry ts r)
termination_by s.length + 3 * toksSize ts + 2
decreasing_by
  all_goals (try simp only [List.length_cons])
  all_goals omega

def capLazyTry (ts : List Tok) (pre : List Char) (s : List Char) : Option MatchRes :=
  ((matchToks ts s).map (fun pr => (some pre :: pr.1, pr.2))) <|>
    (match s with
     | [] => none
     | c :: r => capLazyTry ts (pre ++ [c]) r)
termination_by s.length + 3 * toksSize ts + 2
decreasing_by
  all_goals (try simp only [List.length_cons])
  all_goals omega

/-- Capturing alternation of literals (case-insensitive), tried in pattern
order; the capture is the matched input slice. -/
def altTry (ts : List Tok) (alts : List (List Char)) (s : List Char) : Option MatchRes :=
  match alts with
  | [] => none
  | a :: rest =>
    (if isPrefixOfCI a s then
      (matchToks ts (s.drop a.length)).map
        (fun pr => (some (s.take a.length) :: pr.1, pr.2))
     else none) <|> altTry ts rest s
termination_by s.length + 3 * toksSize ts + 2 + alts.length
decreasing_by
  all_goals (try simp only [List.length_cons, List.length_drop])
  all_goals omega

end

/-- Find the first (leftmost) match of the pattern in `s`: returns the
offset of the match, its captures, and the input remaining after it. -/
def scanStep (ts : List Tok) : List Char → Option (Nat × List (Option (List Char)) × List Char)
  | [] => (matchToks ts []).map (fun pr => (0, pr.1, pr.2))
  | c :: t =>
    match matchToks ts (c :: t) with
    | some pr => some (0, pr.1, pr.2)
    | none => (scanStep ts t).map (fun m => (m.1 + 1, m.2.1, m.2.2))

/-- JS `String.prototype.matchAll`: successive non-overlapping leftmost
matches; a zero-width match advances `lastIndex` by one.  Returns the
absolute match positions (starting at `pos`) and the captures of each
match. -/
def scanAll (ts : List Tok) (s : List Char) (pos : Nat) :
    List (Nat × List (Option (List Char))) :=
  match scanStep ts s with
  | none => []
  | some (k, cs, r) =>
    if h : r.length < s.length then
      (pos + k, cs) :: scanAll ts r (pos + (s.length - r.length))
    else
      -- zero-width match (necessarily at offset 0 for the non-empty
      -- patterns in this file): advance by one character, as JS does
      (pos + k, cs) ::
        (match s with
         | [] => []
         | _ :: t => scanAll ts t (pos + 1))
termination_by s.length
decreasing_by
  · omega
  · simp

/-- JS non-global `String.prototype.replace` with a regex pattern and a
constant replacement. -/
def replaceFirstRe (ts : List Tok) (rep : List Char) : List Char → List Char
  | [] => []
  | c :: t =>
    match matchToks ts (c :: t) with
    | some pr => rep ++ pr.2
    | none => c :: replaceFirstRe ts rep t

/-- JS global `String.prototype.replace` with a regex pattern and a constant
replacement.  A zero-width match (which the non-empty patterns in this file
never produce) advances by one character, as JS does. -/
def replaceAllRe (ts : List Tok) (rep : List Char) (s : List Char) : List Char :=
  match s with
  | [] =>
    match matchToks ts [] with
    | some _ => rep
    | none => []
  | c :: t =>
    match matchToks ts (c :: t) with
    | some pr =>
      if h : pr.2.length < (c :: t).length then rep ++ replaceAllRe ts rep pr.2
      else rep ++ (c :: replaceAllRe ts rep t)
    | none => c :: replaceAllRe ts rep t
termination_by s.length
decreasing_by
  all_goals first | exact h | simp

/-- JS `String.prototype.match` (first match): the capture list of the
leftmost match, if any. -/
def findFirstMatch (ts : List Tok) : List Char → Option (List (Option (List Char)))
  | [] => (matchToks ts []).map Prod.fst
  | c :: t =>
    match matchToks ts (c :: t) with
    | some pr => some pr.1
    | none => findFirstMatch ts t

/-- A successful match never leaves behind more input than it was given
(joint statement for the whole engine, by strong induction on the
termination measure). -/
theorem engineRestLe : ∀ n : Nat,
    (∀ ts s, s.length + 3 * toksSize ts < n →
      ∀ pr : MatchRes, matchToks ts s = some pr → pr.2.length ≤ s.length) ∧
    (∀ ts run rest, run.length + rest.length + 3 * toksSize ts + 2 < n →
      ∀ pr : MatchRes, greedyTry ts run rest = some pr →
        pr.2.length ≤ run.length + rest.length) ∧
    (∀ ts pre run rest, run.length + rest.length + 3 * toksSize ts + 2 < n →
      ∀ pr : MatchRes, capGreedyTry ts pre run rest = some pr →
        pr.2.length ≤ run.length + rest.length) ∧
    (∀ ts s, s.length + 3 * toksSize ts + 2 < n →
      ∀ pr : MatchRes, lazyTry ts s = some pr → pr.2.length ≤ s.length) ∧
    (∀ ts pre s, s.length + 3 * toksSize ts + 2 < n →
      ∀ pr : MatchRes, capLazyTry ts pre s = some pr → pr.2.length ≤ s.length) ∧
    (∀ ts alts s, s.length + 3 * toksSize ts + 2 + alts.length < n →
      ∀ pr : MatchRes, altTry ts alts s = some pr → pr.2.length ≤ s.length) := by
  intro n
  induction n using Nat.strong_induction_on with
  | _ n ih =>
    have hn1 : ∀ {m : Nat}, m + 1 ≤ n → n - 1 < n := fun h => by omega
    refine ⟨?_, ?_, ?_, ?_, ?_, ?_⟩
    · -- matchToks
      intro ts s hb pr heq
      have IH := ih (n - 1) (by omega)
      match ts with
      | [] =>
        simp only [matchToks, Option.some.injEq] at heq
        rw [← heq]
      | .lit p :: ts' =>
        simp only [matchToks] at heq
        split at heq
        · simp only [toksSize, tokSize] at hb
          have h1 := List.length_drop p.length s
          have := IH.1 ts' (s.drop p.length) (by omega) pr heq
          omega
        · exact absurd heq (by simp)
      | .litCI p :: ts' =>
        simp only [matchToks] at heq
        split at heq
        · simp only [toksSize, tokSize] at hb
          have h1 := List.length_drop p.length s
          have := IH.1 ts' (s.drop p.length) (by omega) pr heq
          omega
        · exact absurd heq (by simp)
      | .many p :: ts' =>
        simp only [matchToks] at heq
        simp only [toksSize, tokSize] at hb
        have h1 := length_takeWhile_add_dropWhile p s
        have := IH.2.1 ts' (s.takeWhile p) (s.dropWhile p) (by omega) pr heq
        omega
      | .lazyNC :: ts' =>
        simp only [matchToks] at heq
        simp only [toksSize, tokSize] at hb
        exact IH.2.2.2.1 ts' s (by omega) pr heq
      | .capOne p :: ts' =>
        match s with
        | [] => simp [matchToks] at heq
        | c :: r =>
          simp only [matchToks] at heq
          split at heq
          · obtain ⟨q, hq, hfq⟩ := Option.map_eq_some'.mp heq
            simp only [toksSize, tokSize, List.length_cons] at hb
            have := IH.1 ts' r (by omega) q hq
            rw [← hfq]
            simp only [List.length_cons]
            omega
          · exact absurd heq (by simp)
      | .capMany p :: ts' =>
        simp only [matchToks] at heq
        simp only [toksSize, tokSize] at hb
        have h1 := length_takeWhile_add_dropWhile p s
        have := IH.2.2.1 ts' [] (s.takeWhile p) (s.dropWhile p) (by omega) pr heq
        omega
      | .capMany1 p :: ts' =>
        match s with
        | [] => simp [matchToks] at heq
        | c :: r =>
          simp only [matchToks] at heq
          split at heq
          · simp only [toksSize, tokSize, List.length_cons] at hb
            have h1 := length_takeWhile_add_dropWhile p r
            have := IH.2.2.1 ts' [c] (r.takeWhile p) (r.dropWhile p) (by omega) pr heq
            simp only [List.length_cons]
            omega
          · exact absurd heq (by simp)
      | .capLitMany1 pre p :: ts' =>
        simp only [matchToks] at heq
        split at heq
        · simp only [toksSize, tokSize] at hb
          have h1 := length_takeWhile_add_dropWhile p (List.tail (List.drop pre.length s))
          have h2 := List.length_tail (List.drop pre.length s)
          have h3 := List.length_drop pre.length s
          have := IH.2.2.1 ts' (pre ++ List.take 1 (List.drop pre.length s))
            (List.takeWhile p (List.drop pre.length s).tail)
            (List.dropWhile p (List.drop pre.length s).tail) (by omega) pr heq
          omega
        · exact absurd heq (by simp)
      | .capLazy :: ts' =>
        simp only [matchToks] at heq
        simp only [toksSize, tokSize] at hb
        exact IH.2.2.2.2.1 ts' [] s (by omega) pr heq
      | .capAltCI alts :: ts' =>
        simp only [matchToks] at heq
        simp only [toksSize, tokSize] at hb
        exact IH.2.2.2.2.2 ts' alts s (by omega) pr heq
      | .opt inner :: ts' =>
        simp only [matchToks] at heq
        simp only [toksSize, tokSize] at hb
        rcases ha : matchToks (inner ++ ts') s with _ | q
        · rw [ha] at heq
          simp only [Option.none_orElse] at heq
          obtain ⟨q, hq, hfq⟩ := Option.map_eq_some'.mp heq
          have := IH.1 ts' s (by omega) q hq
          rw [← hfq]
          simpa using this
        · rw [ha] at heq
          simp only [Option.some_orElse, Option.some.injEq] at heq
          subst heq
          have hsz := toksSize_append inner ts'
          exact IH.1 (inner ++ ts') s (by omega) q ha
    · -- greedyTry
      intro ts run rest hb pr heq
      have IH := ih (n - 1) (by omega)
      match run with
      | [] =>
        simp only [greedyTry] at heq
        have := IH.1 ts rest (by omega) pr heq
        simpa using this
      | c :: run' =>
        simp only [greedyTry] at heq
        simp only [List.length_cons] at hb ⊢
        rcases ha : greedyTry ts run' rest with _ | q
        · rw [ha] at heq
          simp only [Option.none_orElse] at heq
          have := IH.1 ts (c :: run' ++ rest) (by simp; omega) pr heq
          simp only [List.length_cons, List.length_append] at this
          omega
        · rw [ha] at heq
          simp only [Option.some_orElse, Option.some.injEq] at heq
          subst heq
          have := IH.2.1 ts run' rest (by omega) q ha
          omega
    · -- capGreedyTry
      intro ts pre run rest hb pr heq
      have IH := ih (n - 1) (by omega)
      match run with
      | [] =>
        simp only [capGreedyTry] at heq
        obtain ⟨q, hq, hfq⟩ := Option.map_eq_some'.mp heq
        have := IH.1 ts rest (by omega) q hq
        rw [← hfq]
        simpa using this
      | c :: run' =>
        simp only [capGreedyTry] at heq
        simp only [List.length_cons] at hb ⊢
        rcases ha : capGreedyTry ts (pre ++ [c]) run' rest with _ | q
        · rw [ha] at heq
          simp only [Option.none_orElse] at heq
          obtain ⟨q, hq, hfq⟩ := Option.map_eq_some'.mp heq
          have := IH.1 ts (c :: run' ++ rest) (by simp; omega) q hq
          simp only [List.length_cons, List.length_append] at this
          have hpr2 : pr.2 = q.2 := by rw [← hfq]
          rw [hpr2]
          omega
        · rw [ha] at heq
          simp only [Option.some_orElse, Option.some.injEq] at heq
          subst heq
          have := IH.2.2.1 ts (pre ++ [c]) run' rest (by omega) q ha
          omega
    · -- lazyTry
      intro ts s hb pr heq
      have IH := ih (n - 1) (by omega)
      unfold lazyTry at heq
      rcases ha : matchToks ts s with _ | q
      · rw [ha] at heq
        simp only [Option.none_orElse] at heq
        match s with
        | [] => cases heq
        | c :: r =>
          simp only [List.length_cons]
          have := IH.2.2.2.1 ts r (by simp only [List.length_cons] at hb; omega) pr heq
          omega
      · rw [ha] at heq
        simp only [Option.some_orElse, Option.some.injEq] at heq
        subst heq
        exact IH.1 ts s (by omega) q ha
    · -- capLazyTry
      intro ts pre s hb pr heq
      have IH := ih (n - 1) (by omega)
      unfold capLazyTry at heq
      rcases ha : matchToks ts s with _ | q
      · rw [ha] at heq
        simp only [Option.map_none', Option.none_orElse] at heq
        match s with
        | [] => cases heq
        | c :: r =>
          simp only [List.length_cons]
          have := IH.2.2.2.2.1 ts (pre ++ [c]) r
            (by simp only [List.length_cons] at hb; omega) pr heq
          omega
      · rw [ha] at heq
        simp only [Option.map_some', Option.some_orElse, Option.some.injEq] at heq
        subst heq
        have := IH.1 ts s (by omega) q ha
        simpa using this
    · -- altTry
      intro ts alts s hb pr heq
      have IH := ih (n - 1) (by omega)
      match alts with
      | [] => simp [altTry] at heq
      | a :: rest' =>
        simp only [altTry] at heq
        simp only [List.length_cons] at hb
        split at heq
        · rcases hm : (matchToks ts (s.drop a.length)).map
              (fun pr => (some (s.take a.length) :: pr.1, pr.2)) with _ | q
          · rw [hm] at heq
            simp only [Option.none_orElse] at heq
            exact IH.2.2.2.2.2 ts rest' s (by omega) pr heq
          · rw [hm] at heq
            simp only [Option.some_orElse, Option.some.injEq] at heq
            subst heq
            obtain ⟨q2, hq2, hfq2⟩ := Option.map_eq_some'.mp hm
            have h1 := List.length_drop a.length s
            have := IH.1 ts (s.drop a.length) (by omega) q2 hq2
            rw [← hfq2]
            simp only []
            omega
        · simp only [Option.none_orElse] at heq
          exact IH.2.2.2.2.2 ts rest' s (by omega) pr heq

/-- Specialization: a successful `matchToks` leaves at most the input. -/
theorem matchToks_rest_le {ts : List Tok} {s : List Char} {pr : MatchRes}
    (h : matchToks ts s = some pr) : pr.2.length ≤ s.length :=
  (engineRestLe (s.length + 3 * toksSize ts + 1)).1 ts s (by omega) pr h

theorem scanStep_spec {ts : List Tok} :
    ∀ {s : List Char} {k : Nat} {cs : List (Option (List Char))} {r : List Char},
      scanStep ts s = some (k, cs, r) →
      matchToks ts (s.drop k) = some (cs, r) ∧ k ≤ s.length := by
  intro s
  induction s with
  | nil =>
    intro k cs r h
    simp only [scanStep] at h
    obtain ⟨q, hq, hfq⟩ := Option.map_eq_some'.mp h
    cases hfq
    exact ⟨by simpa using hq, by simp⟩
  | cons c t ih =>
    intro k cs r h
    simp only [scanStep] at h
    rcases hm : matchToks ts (c :: t) with _ | q
    · rw [hm] at h
      obtain ⟨m, hstep, hfm⟩ := Option.map_eq_some'.mp h
      cases hfm
      obtain ⟨ih1, ih2⟩ := ih hstep
      refine ⟨by simpa using ih1, by simp only [List.length_cons]; omega⟩
    · rw [hm] at h
      simp only [Option.some.injEq] at h
      cases h
      exact ⟨by simpa using hm, by simp⟩

/-- The pattern never matches the empty string (it always consumes at least
one character). -/
def NoEmpty (ts : List Tok) : Prop :=
  ∀ s pr, matchToks ts s = some pr → pr.2.length < s.length

/-- A pattern that starts with a non-empty literal never matches emptily. -/
theorem noEmpty_of_lit {p : List Char} (hp : p ≠ []) (ts : List Tok) :
    NoEmpty (Tok.lit p :: ts) := by
  intro s pr h
  simp only [matchToks] at h
  split at h
  · rename_i hpre
    have h1 := matchToks_rest_le h
    have h2 : p.length ≤ s.length := (List.isPrefixOf_iff_prefix.mp hpre).length_le
    have h3 : 0 < p.length := List.length_pos.mpr hp
    simp only [List.length_drop] at h1
    omega
  · cases h

/-- For a pattern that never matches emptily, the match positions produced by
`scanAll` are bounded below by `pos` and strictly increasing — matches are
reported in document order. -/
theorem scanAll_pos_strict {ts : List Tok} (H : NoEmpty ts) :
    ∀ (s : List Char) (pos : Nat),
      (∀ m ∈ scanAll ts s pos, pos ≤ m.1) ∧
      ((scanAll ts s pos).map Prod.fst).Pairwise (· < ·) := by
  suffices hsuf : ∀ (n : Nat) (s : List Char) (pos : Nat), s.length ≤ n →
      (∀ m ∈ scanAll ts s pos, pos ≤ m.1) ∧
      ((scanAll ts s pos).map Prod.fst).Pairwise (· < ·) by
    exact fun s pos => hsuf s.length s pos le_rfl
  intro n
  induction n with
  | zero =>
    intro s pos hlen
    have hs : s = [] := List.length_eq_zero.mp (by omega)
    subst hs
    rcases hm : matchToks ts [] with _ | pr
    · rw [scanAll]
      simp only [scanStep, hm, Option.map_none']
      simp
    · exact absurd (H [] pr hm) (by simp)
  | succ n ihn =>
    intro s pos hlen
    rw [scanAll]
    rcases hstep : scanStep ts s with _ | m
    · simp
    · obtain ⟨k, cs, r⟩ := m
      obtain ⟨hmt, hk⟩ := scanStep_spec hstep
      have hr : r.length < s.length - k := by
        have := H (s.drop k) (cs, r) hmt
        simpa [List.length_drop] using this
      have hlt : r.length < s.length := by omega
      simp only [dif_pos hlt]
      have hrec := ihn r (pos + (s.length - r.length)) (by omega)
      constructor
      · intro m hm
        rcases List.mem_cons.mp hm with rfl | hm
        · simp
        · have := hrec.1 m hm
          omega
      · simp only [List.map_cons]
        rw [List.pairwise_cons]
        refine ⟨?_, hrec.2⟩
        intro x hx
        simp only [List.mem_map] at hx
        obtain ⟨m, hm, rfl⟩ := hx
        have := hrec.1 m hm
        omega

/-! ### `parseHistoryEntries` (fetcher.ts, lines 445–458) and the
zero-entry guard in `ingestLaw` (ingest.ts, lines 217–221) -/

/-- The history-row regex
`/<tr class="effectivenessHistoryItem"[^>]*data-vyhlasene="([01])"[^>]*data-ucinnostod="([^"]*)"[^>]*data-ucinnostdo="([^"]*)"[^>]*>[\s\S]*?<a href="([^"]+)"/g`
transliterated token by token. -/
def historyRowToks : List Tok :=
  [.lit "<tr class=\"effectivenessHistoryItem\"".data,
   .many (fun c => c != '>'),
   .lit "data-vyhlasene=\"".data,
   .capOne (fun c => c == '0' || c == '1'),
   .lit "\"".data,
   .many (fun c => c != '>'),
   .lit "data-ucinnostod=\"".data,
   .capMany (fun c => c != '"'),
   .lit "\"".data,
   .many (fun c => c != '>'),
   .lit "data-ucinnostdo=\"".data,
   .capMany (fun c => c != '"'),
   .lit "\"".data,
   .many (fun c => c != '>'),
   .lit ">".data,
   .lazyNC,
   .lit "<a href=\"".data,
   .capMany1 (fun c => c != '"'),
   .lit "\"".data]

/-- One matched row mapped to a `HistoryEntry` (fetcher.ts lines 452–457):
`row[1] === '1'`, `row[2].trim()`, `row[3].trim()`, `row[4].trim()`. -/
def rowToEntry (caps : List (Option (List Char))) : HistoryEntry :=
  { isPromulgatedVersion := (caps.getD 0 none).getD [] == "1".data
    inForceFrom := jsTrim ((caps.getD 1 none).getD [])
    inForceTo := jsTrim ((caps.getD 2 none).getD [])
    href := jsTrim ((caps.getD 3 none).getD []) }

/-- `parseHistoryEntries` (fetcher.ts lines 445–458): all regex matches, in
scan (document) order, each mapped to its four fields.  The function has no
`throw`: on input with no matching row it returns `[]`. -/
def parseHistoryEntries (historyHtml : List Char) : List HistoryEntry :=
  (scanAll historyRowToks historyHtml 0).map (fun m => rowToEntry m.2)

/-- The zero-entry check in `ingestLaw` (ingest.ts lines 217–221): the
caller, not the parser, raises the error on an empty entry list. -/
def ingestHistoryGuard (entries : List HistoryEntry) :
    Except (List Char) (List HistoryEntry) :=
  if entries.length = 0 then
    .error "No history entries found in law history page".data
  else .ok entries

/-- A concrete well-formed two-row history page. -/
def twoRowHistoryHtml : List Char :=
  ("<tr class=\"effectivenessHistoryItem\" data-vyhlasene=\"1\" data-ucinnostod=\"\""
    ++ " data-ucinnostdo=\"\"><td><a href=\"1918c.html\">a</a></td></tr>"
    ++ "<tr class=\"effectivenessHistoryItem\" data-vyhlasene=\"0\""
    ++ " data-ucinnostod=\"2020-01-01\" data-ucinnostdo=\"\"><td>"
    ++ "<a href=\"20200101.html\">b</a></td></tr>").data

/-- **C3 (counterexample to the claim as stated).**  On empty (row-less)
input, `parseHistoryEntries` does not throw: it returns the value `[]`.
(The function body contains no `throw`; the zero-row error is raised by its
caller `ingestLaw`.) -/
theorem parseHistoryEntries_empty_returns_value :
    parseHistoryEntries "".data = [] := by
  simp [parseHistoryEntries, scanAll, scanStep, matchToks, historyRowToks,
    List.isPrefixOf]

set_option maxRecDepth 100000 in
set_option maxHeartbeats 4000000 in
/-- **C3 (amended).**  `parseHistoryEntries` returns the matched history rows
in document order (the underlying match positions are strictly increasing),
each row carrying exactly the four `HistoryEntry` fields; on input with no
matching rows it returns an empty list, and the caller `ingestLaw` treats
zero entries as the ingestion failure.  A concrete two-row page parses to
its two entries in document order. -/
theorem parseHistoryEntries_spec (html : List Char) :
    ((scanAll historyRowToks html 0).map Prod.fst).Pairwise (· < ·) ∧
    (parseHistoryEntries html = [] →
      ingestHistoryGuard (parseHistoryEntries html)
        = .error "No history entries found in law history page".data) ∧
    parseHistoryEntries twoRowHistoryHtml =
      [⟨"1918c.html".data, [], [], true⟩,
       ⟨"20200101.html".data, "2020-01-01".data, [], false⟩] := by
  refine ⟨?_, ?_, ?_⟩
  · exact (scanAll_pos_strict (noEmpty_of_lit (by decide) _) html 0).2
  · intro h
    rw [h]
    rfl
  · show parseHistoryEntries twoRowHistoryHtml = _
    simp only [parseHistoryEntries, twoRowHistoryHtml]
    simp +decide [scanAll, scanStep, matchToks, greedyTry, capGreedyTry, lazyTry,
      capLazyTry, altTry, historyRowToks, rowToEntry, jsTrim, jsWs]

theorem parseHistoryEntries_spec_witness :
    parseHistoryEntries "".data = [] ∧
    ingestHistoryGuard (parseHistoryEntries "".data)
      = .error "No history entries found in law history page".data := by
  have h0 : parseHistoryEntries "".data = [] := by
    simp [parseHistoryEntries, scanAll, scanStep, matchToks, historyRowToks,
      List.isPrefixOf]
  exact ⟨h0, (parseHistoryEntries_spec "".data).2.1 h0⟩

/-! ### `cleanTextFragment` (fetcher.ts, lines 267–277) -/

/-- `/<a[^>]*class="citacnyOdkazJednoduchy"[^>]*>[\s\S]*?<\/a>/gi`. -/
def citacnyToks : List Tok :=
  [.litCI "<a".data, .many (fun c => c != '>'),
   .litCI "class=\"citacnyOdkazJednoduchy\"".data,
   .many (fun c => c != '>'), .lit ">".data, .lazyNC, .litCI "</a>".data]

/-- `/<sup[^>]*>[\s\S]*?<\/sup>/gi`. -/
def supToks : List Tok :=
  [.litCI "<sup".data, .many (fun c => c != '>'), .lit ">".data, .lazyNC,
   .litCI "</sup>".data]

/-- `/<a[^>]*>/gi`. -/
def aOpenToks : List Tok :=
  [.litCI "<a".data, .many (fun c => c != '>'), .lit ">".data]

/-- `/<\/a>/gi`. -/
def aCloseToks : List Tok := [.litCI "</a>".data]

/-- `cleanTextFragment` (fetcher.ts lines 267–277): remove citation anchors,
superscripts and remaining anchor tags, then strip tags, then normalize. -/
def cleanTextFragment (input : List Char) : List Char :=
  normalizeLine (stripTags
    (replaceAllRe aCloseToks []
      (replaceAllRe aOpenToks []
        (replaceAllRe supToks []
          (replaceAllRe citacnyToks [] input)))))

/-- `extractByRegex` (fetcher.ts lines 292–297): first match, first capture
group, cleaned; empty results are `undefined` (JS falsiness also drops an
empty capture). -/
def extractByRegex (html : List Char) (ts : List Tok) : Option (List Char) :=
  match findFirstMatch ts html with
  | none => none
  | some caps =>
    match caps.getD 0 none with
    | none => none
    | some g =>
      if g = [] then none
      else
        let value := cleanTextFragment g
        if 0 < value.length then some value else none

/-! ### `buildProvisionContent` (fetcher.ts, lines 355–392) -/

/-- `/<div class="paragrafOznacenie"[^>]*>[\s\S]*?<\/div>/i`. -/
def paragrafOznStripToks : List Tok :=
  [.litCI "<div class=\"paragrafOznacenie\"".data, .many (fun c => c != '>'),
   .lit ">".data, .lazyNC, .litCI "</div>".data]

/-- `/<div class="paragrafNadpis[^>]*>[\s\S]*?<\/div>/i`. -/
def paragrafNadpisStripToks : List Tok :=
  [.litCI "<div class=\"paragrafNadpis".data, .many (fun c => c != '>'),
   .lit ">".data, .lazyNC, .litCI "</div>".data]

/-- `/<div class="(odsekOznacenie|pismenoOznacenie|bodOznacenie|text)"[^>]*>([\s\S]*?)<\/div>/gi`. -/
def tokenToks : List Tok :=
  [.litCI "<div class=\"".data,
   .capAltCI ["odsekOznacenie".data, "pismenoOznacenie".data, "bodOznacenie".data,
     "text".data],
   .lit "\"".data, .many (fun c => c != '>'), .lit ">".data, .capLazy,
   .litCI "</div>".data]

/-- The token loop of `buildProvisionContent` (fetcher.ts lines 361–378):
prefix markers are buffered and prepended (space-joined, with a trailing
space) to the next `text` block; the `kind === 'text'` comparison is
case-sensitive on the captured input slice. -/
def buildLines : List (List (Option (List Char))) → List (List Char) → List (List Char)
  | [], _ => []
  | caps :: rest, buffer =>
    let kind := (caps.getD 0 none).getD []
    let raw := (caps.getD 1 none).getD []
    let value := cleanTextFragment raw
    if value = [] then buildLines rest buffer
    else if kind == "text".data then
      let pfx := if buffer ≠ [] then List.intercalate " ".data buffer ++ " ".data else []
      normalizeLine (pfx ++ value) :: buildLines rest []
    else buildLines rest (buffer ++ [value])

/-- Collapse immediately-adjacent duplicate lines (fetcher.ts lines
384–389). -/
def dedupeAdjacent : List (List Char) → List (List Char)
  | [] => []
  | [x] => [x]
  | x :: y :: rest =>
    if y = x then dedupeAdjacent (x :: rest) else x :: dedupeAdjacent (y :: rest)
termination_by l => l.length
decreasing_by
  · simp
  · simp

/-- `buildProvisionContent` (fetcher.ts lines 355–392). -/
def buildProvisionContent (paragraphHtml : List Char) : List Char :=
  let withoutHeader :=
    replaceFirstRe paragrafNadpisStripToks []
      (replaceFirstRe paragrafOznStripToks [] paragraphHtml)
  let lines := buildLines ((scanAll tokenToks withoutHeader 0).map (fun m => m.2)) []
  if lines = [] then normalizeLine (cleanTextFragment withoutHeader)
  else List.intercalate "\n".data (dedupeAdjacent lines)

/-! ### C6: idempotence of provision-body reconstruction.

Whitespace canonical-form lemmas for `normalizeWhitespace`, identity lemmas
for every stage of the pipeline on inputs free of the characters the stage
consumes, and the idempotence theorem for second passes whose input is a
clean single-line body. -/

/-! Whitespace canonical-form lemmas -/

theorem head?_dropWhile_false {p : Char → Bool} :
    ∀ (l : List Char) {c : Char}, (l.dropWhile p).head? = some c → p c = false
  | [], c => by simp
  | a :: t, c => by
    intro h
    rw [List.dropWhile_cons] at h
    split at h
    · exact head?_dropWhile_false t h
    · rename_i hpa
      simp only [List.head?_cons, Option.some.injEq] at h
      subst h
      simpa using hpa

set_option maxHeartbeats 2000000 in
theorem collapseWs_sp (s : List Char) : ∀ c ∈ collapseWs s, jsWs c = true → c = ' ' := by
  induction s using collapseWs.induct with
  | case1 => simp [collapseWs]
  | case2 c rest hws ih =>
    intro d hd hwd
    rw [collapseWs, if_pos hws] at hd
    rcases List.mem_cons.mp hd with rfl | hd'
    · rfl
    · exact ih d hd' hwd
  | case3 c rest hws ih =>
    intro d hd hwd
    rw [collapseWs, if_neg hws] at hd
    rcases List.mem_cons.mp hd with rfl | hd'
    · exact absurd hwd (by simpa using hws)
    · exact ih d hd' hwd

set_option maxHeartbeats 2000000 in
theorem head?_collapseWs_not_ws {s : List Char} {d : Char}
    (hh : ∀ c ∈ s.head?, jsWs c = false)
    (hd : (collapseWs s).head? = some d) : jsWs d = false := by
  cases s with
  | nil => simp [collapseWs] at hd
  | cons c t =>
    have hc : jsWs c = false := hh c rfl
    rw [collapseWs, if_neg (by simp [hc])] at hd
    simp only [List.head?_cons, Option.some.injEq] at hd
    subst hd
    exact hc

set_option maxHeartbeats 2000000 in
theorem collapseWs_chain (s : List Char) :
    (collapseWs s).Chain' (fun a b => ¬(jsWs a = true ∧ jsWs b = true)) := by
  induction s using collapseWs.induct with
  | case1 => simp [collapseWs]
  | case2 c rest hws ih =>
    rw [collapseWs, if_pos hws, List.chain'_cons']
    refine ⟨?_, ih⟩
    intro y hy
    have hdw : ∀ e ∈ (rest.dropWhile jsWs).head?, jsWs e = false := by
      intro e he
      exact head?_dropWhile_false _ he
    have hy' := head?_collapseWs_not_ws hdw hy
    simp [hy']
  | case3 c rest hws ih =>
    rw [collapseWs, if_neg hws, List.chain'_cons']
    refine ⟨?_, ih⟩
    intro y hy
    simp only [Bool.not_eq_true] at hws
    simp [hws]

theorem chain'_dropWhile {R : Char → Char → Prop} {p : Char → Bool} :
    ∀ {l : List Char}, l.Chain' R → (l.dropWhile p).Chain' R
  | [], h => by simpa using h
  | a :: t, h => by
    rw [List.dropWhile_cons]
    split
    · exact chain'_dropWhile h.tail
    · exact h

theorem chain'_reverse_ws {l : List Char}
    (h : l.Chain' (fun a b => ¬(jsWs a = true ∧ jsWs b = true))) :
    l.reverse.Chain' (fun a b => ¬(jsWs a = true ∧ jsWs b = true)) := by
  rw [List.chain'_reverse]
  exact h.imp (fun _ _ hab hc => hab ⟨hc.2, hc.1⟩)

theorem jsTrim_sp {s : List Char} (h : ∀ c ∈ s, jsWs c = true → c = ' ') :
    ∀ c ∈ jsTrim s, jsWs c = true → c = ' ' := by
  intro c hc
  apply h
  unfold jsTrim at hc
  rw [List.mem_reverse] at hc
  have hc2 := (List.dropWhile_sublist jsWs).subset hc
  rw [List.mem_reverse] at hc2
  exact (List.dropWhile_sublist jsWs).subset hc2

theorem jsTrim_chain {s : List Char}
    (h : s.Chain' (fun a b => ¬(jsWs a = true ∧ jsWs b = true))) :
    (jsTrim s).Chain' (fun a b => ¬(jsWs a = true ∧ jsWs b = true)) := by
  unfold jsTrim
  exact chain'_reverse_ws (chain'_dropWhile (chain'_reverse_ws (chain'_dropWhile h)))

theorem getLast?_dropWhile_eq {p : Char → Bool} :
    ∀ {z : List Char} {c : Char}, (z.dropWhile p).getLast? = some c → z.getLast? = some c
  | [], c => by simp
  | a :: t, c => by
    intro h
    rw [List.dropWhile_cons] at h
    split at h
    · have ht := getLast?_dropWhile_eq h
      cases t with
      | nil => simp at ht
      | cons b u =>
        rw [List.getLast?_cons_cons]
        exact ht
    · exact h

theorem jsTrim_head {s : List Char} : ∀ c ∈ (jsTrim s).head?, jsWs c = false := by
  intro c hc
  rw [Option.mem_def] at hc
  unfold jsTrim at hc
  rw [List.head?_reverse] at hc
  have h2 := getLast?_dropWhile_eq hc
  rw [List.getLast?_reverse] at h2
  exact head?_dropWhile_false _ h2

theorem jsTrim_last {s : List Char} : ∀ c ∈ (jsTrim s).getLast?, jsWs c = false := by
  intro c hc
  rw [Option.mem_def] at hc
  unfold jsTrim at hc
  rw [List.getLast?_reverse] at hc
  exact head?_dropWhile_false _ hc

set_option maxHeartbeats 2000000 in
theorem collapseWs_eq_self {s : List Char}
    (hsp : ∀ c ∈ s, jsWs c = true → c = ' ')
    (hch : s.Chain' (fun a b => ¬(jsWs a = true ∧ jsWs b = true))) :
    collapseWs s = s := by
  induction s with
  | nil => simp [collapseWs]
  | cons c t ih =>
    rw [List.chain'_cons'] at hch
    have ht := ih (fun d hd => hsp d (List.mem_cons_of_mem _ hd)) hch.2
    by_cases hc : jsWs c = true
    · rw [collapseWs, if_pos hc]
      have hc' : c = ' ' := hsp c (List.mem_cons_self _ _) hc
      have hdt : t.dropWhile jsWs = t := by
        cases t with
        | nil => rfl
        | cons b u =>
          rw [List.dropWhile_cons, if_neg]
          intro hb
          exact hch.1 b rfl ⟨hc, hb⟩
      rw [hdt, ht, hc']
    · rw [collapseWs, if_neg hc, ht]

theorem jsTrim_eq_self {s : List Char}
    (hh : ∀ c ∈ s.head?, jsWs c = false)
    (hl : ∀ c ∈ s.getLast?, jsWs c = false) :
    jsTrim s = s := by
  unfold jsTrim
  have h1 : s.dropWhile jsWs = s := by
    cases s with
    | nil => rfl
    | cons c t =>
      rw [List.dropWhile_cons, if_neg]
      simp [hh c rfl]
  rw [h1]
  have h2 : s.reverse.dropWhile jsWs = s.reverse := by
    rcases hrev : s.reverse with _ | ⟨c, t⟩
    · rfl
    · rw [List.dropWhile_cons, if_neg]
      have hcl : s.getLast? = some c := by
        rw [← List.head?_reverse, hrev]
        rfl
      simp [hl c hcl]
  rw [h2, List.reverse_reverse]

theorem normalizeWhitespace_canon (y : List Char) :
    (∀ c ∈ normalizeWhitespace y, jsWs c = true → c = ' ') ∧
    (normalizeWhitespace y).Chain' (fun a b => ¬(jsWs a = true ∧ jsWs b = true)) ∧
    (∀ c ∈ (normalizeWhitespace y).head?, jsWs c = false) ∧
    (∀ c ∈ (normalizeWhitespace y).getLast?, jsWs c = false) := by
  unfold normalizeWhitespace
  exact ⟨jsTrim_sp (collapseWs_sp y), jsTrim_chain (collapseWs_chain y),
    jsTrim_head, jsTrim_last⟩

theorem normalizeWhitespace_of_canon {s : List Char}
    (hsp : ∀ c ∈ s, jsWs c = true → c = ' ')
    (hch : s.Chain' (fun a b => ¬(jsWs a = true ∧ jsWs b = true)))
    (hh : ∀ c ∈ s.head?, jsWs c = false)
    (hl : ∀ c ∈ s.getLast?, jsWs c = false) :
    normalizeWhitespace s = s := by
  unfold normalizeWhitespace
  rw [collapseWs_eq_self hsp hch, jsTrim_eq_self hh hl]

theorem replSpTabNl_eq_self {s : List Char} (h : '\n' ∉ s) : replSpTabNl s = s := by
  induction s with
  | nil => simp [replSpTabNl]
  | cons c t ih =>
    have hcond : ¬(isSpTab c = true ∧ ((c :: t).dropWhile isSpTab).head? = some '\n') := by
      rintro ⟨-, h2⟩
      have hmem : '\n' ∈ (c :: t).dropWhile isSpTab := by
        rcases hd : (c :: t).dropWhile isSpTab with _ | ⟨a, u⟩
        · rw [hd] at h2
          simp at h2
        · rw [hd] at h2
          simp only [List.head?_cons, Option.some.injEq] at h2
          subst h2
          exact List.mem_cons_self _ _
      exact h ((List.dropWhile_sublist _).subset hmem)
    simp only [replSpTabNl]
    rw [if_neg hcond, ih (fun hm => h (List.mem_cons_of_mem _ hm))]



/-! No-match identity lemmas for patterns anchored on a character the input
does not contain. -/

theorem foldLower_ne_lt {c : Char} (h : c ≠ '<') : foldLower c ≠ '<' := by
  rw [foldLower]
  by_cases h0 : 'A' ≤ c ∧ c ≤ 'Z'
  · rw [if_pos h0]
    have hv : (c.toNat + 32).isValidChar := by
      left
      have h2' : c.toNat ≤ 0x5a := h0.2
      omega
    intro he
    have ht := congrArg Char.toNat he
    have hofn : (Char.ofNat (c.toNat + 32)).toNat = c.toNat + 32 := by
      simp only [Char.ofNat, Char.toNat] at hv ⊢
      rw [dif_pos hv]
      rfl
    rw [hofn] at ht
    have h1' : 0x41 ≤ c.toNat := h0.1
    have hlt : ('<').toNat = 0x3c := by decide
    omega
  · rw [if_neg h0]
    by_cases h1 : c = 'Á'
    · rw [if_pos h1]
      decide
    · rw [if_neg h1]
      by_cases h2 : c = 'Ä'
      · rw [if_pos h2]
        decide
      · rw [if_neg h2]
        by_cases h3 : c = 'Č'
        · rw [if_pos h3]
          decide
        · rw [if_neg h3]
          by_cases h4 : c = 'Ď'
          · rw [if_pos h4]
            decide
          · rw [if_neg h4]
            by_cases h5 : c = 'É'
            · rw [if_pos h5]
              decide
            · rw [if_neg h5]
              by_cases h6 : c = 'Í'
              · rw [if_pos h6]
                decide
              · rw [if_neg h6]
                by_cases h7 : c = 'Ĺ'
                · rw [if_pos h7]
                  decide
                · rw [if_neg h7]
                  by_cases h8 : c = 'Ľ'
                  · rw [if_pos h8]
                    decide
                  · rw [if_neg h8]
                    by_cases h9 : c = 'Ň'
                    · rw [if_pos h9]
                      decide
                    · rw [if_neg h9]
                      by_cases h10 : c = 'Ó'
                      · rw [if_pos h10]
                        decide
                      · rw [if_neg h10]
                        by_cases h11 : c = 'Ô'
                        · rw [if_pos h11]
                          decide
                        · rw [if_neg h11]
                          by_cases h12 : c = 'Ŕ'
                          · rw [if_pos h12]
                            decide
                          · rw [if_neg h12]
                            by_cases h13 : c = 'Š'
                            · rw [if_pos h13]
                              decide
                            · rw [if_neg h13]
                              by_cases h14 : c = 'Ť'
                              · rw [if_pos h14]
                                decide
                              · rw [if_neg h14]
                                by_cases h15 : c = 'Ú'
                                · rw [if_pos h15]
                                  decide
                                · rw [if_neg h15]
                                  by_cases h16 : c = 'Ý'
                                  · rw [if_pos h16]
                                    decide
                                  · rw [if_neg h16]
                                    by_cases h17 : c = 'Ž'
                                    · rw [if_pos h17]
                                      decide
                                    · rw [if_neg h17]
                                      exact h

theorem charEqCI_lt_false {c : Char} (h : c ≠ '<') : charEqCI '<' c = false := by
  have h2 := foldLower_ne_lt h
  simp only [charEqCI]
  rw [Bool.or_eq_false_iff]
  refine ⟨beq_eq_false_iff_ne.mpr (Ne.symm h), ?_⟩
  rw [show foldLower '<' = '<' from by decide]
  exact beq_eq_false_iff_ne.mpr (fun he => h2 he.symm)

theorem isPrefixOfCI_head_lt {p s : List Char} (hp : p.head? = some '<')
    (hs : '<' ∉ s) : isPrefixOfCI p s = false := by
  cases p with
  | nil => simp at hp
  | cons a p' =>
    simp only [List.head?_cons, Option.some.injEq] at hp
    subst hp
    cases s with
    | nil => rfl
    | cons c cs =>
      have hc : c ≠ '<' := fun he => hs (he ▸ List.mem_cons_self _ _)
      simp only [isPrefixOfCI, charEqCI_lt_false hc, Bool.false_and]

theorem matchToks_headLt_none {p : List Char} {ts : List Tok} {s : List Char}
    (hp : p.head? = some '<') (hs : '<' ∉ s) :
    matchToks (.litCI p :: ts) s = none := by
  simp only [matchToks]
  rw [isPrefixOfCI_head_lt hp hs]
  simp

theorem scanStep_headLt_none {p : List Char} {ts : List Tok}
    (hp : p.head? = some '<') :
    ∀ {s : List Char}, '<' ∉ s → scanStep (.litCI p :: ts) s = none
  | [], _ => by
    simp only [scanStep]
    rw [matchToks_headLt_none hp (by simp)]
    rfl
  | c :: t, hs => by
    simp only [scanStep]
    rw [matchToks_headLt_none hp hs,
      scanStep_headLt_none hp (fun hm => hs (List.mem_cons_of_mem _ hm))]
    rfl

theorem scanAll_headLt_nil {p : List Char} {ts : List Tok} {s : List Char} {pos : Nat}
    (hp : p.head? = some '<') (hs : '<' ∉ s) :
    scanAll (.litCI p :: ts) s pos = [] := by
  unfold scanAll
  rw [scanStep_headLt_none hp hs]

theorem replaceFirstRe_headLt_id {p : List Char} {ts : List Tok} {rep : List Char}
    (hp : p.head? = some '<') :
    ∀ (s : List Char), '<' ∉ s → replaceFirstRe (.litCI p :: ts) rep s = s
  | [], _ => rfl
  | c :: t, hs => by
    simp only [replaceFirstRe]
    rw [matchToks_headLt_none hp hs]
    exact congrArg (c :: ·)
      (replaceFirstRe_headLt_id hp t (fun hm => hs (List.mem_cons_of_mem _ hm)))

theorem replaceAllRe_headLt_id {p : List Char} {ts : List Tok} {rep : List Char}
    (hp : p.head? = some '<') :
    ∀ (s : List Char), '<' ∉ s → replaceAllRe (.litCI p :: ts) rep s = s := by
  intro s
  induction s with
  | nil =>
    intro _
    simp only [replaceAllRe]
    rw [matchToks_headLt_none hp (by simp)]
  | cons c t ih =>
    intro hs
    simp only [replaceAllRe]
    rw [matchToks_headLt_none hp hs]
    exact congrArg (c :: ·) (ih (fun hm => hs (List.mem_cons_of_mem _ hm)))



theorem replaceAllLit_head_id {pat rep : List Char} {h0 : Char}
    (hp : pat.head? = some h0) :
    ∀ (s : List Char), h0 ∉ s → replaceAllLit pat rep s = s := by
  intro s
  induction s with
  | nil => intro _; simp [replaceAllLit]
  | cons c t ih =>
    intro hs
    have hcond : ¬(pat.isPrefixOf (c :: t) = true ∧ 0 < pat.length) := by
      rintro ⟨hpre, -⟩
      cases pat with
      | nil => simp at hp
      | cons a p' =>
        simp only [List.head?_cons, Option.some.injEq] at hp
        subst hp
        simp only [List.isPrefixOf, Bool.and_eq_true] at hpre
        exact hs (beq_iff_eq.mp hpre.1 ▸ List.mem_cons_self _ _)
    simp only [replaceAllLit]
    rw [if_neg hcond, ih (fun hm => hs (List.mem_cons_of_mem _ hm))]

theorem decodeDecEntities_amp_id : ∀ (s : List Char), '&' ∉ s → decodeDecEntities s = s := by
  intro s
  induction s with
  | nil => intro _; simp [decodeDecEntities]
  | cons c t ih =>
    intro hs
    have hc : c ≠ '&' := fun he => hs (he ▸ List.mem_cons_self _ _)
    rw [decodeDecEntities.eq_def]
    split
    · rename_i heq
      exact absurd heq (by simp)
    · rename_i rest heq
      rw [List.cons.injEq] at heq
      exact absurd heq.1 hc
    · rename_i c' rest heq hne
      rw [List.cons.injEq] at hne
      obtain ⟨rfl, rfl⟩ := hne
      rw [ih (fun hm => hs (List.mem_cons_of_mem _ hm))]

theorem decodeHexEntities_amp_id : ∀ (s : List Char), '&' ∉ s → decodeHexEntities s = s := by
  intro s
  induction s with
  | nil => intro _; simp [decodeHexEntities]
  | cons c t ih =>
    intro hs
    have hc : c ≠ '&' := fun he => hs (he ▸ List.mem_cons_self _ _)
    rw [decodeHexEntities.eq_def]
    split
    · rename_i heq
      exact absurd heq (by simp)
    · rename_i rest heq
      rw [List.cons.injEq] at heq
      exact absurd heq.1 hc
    · rename_i c' rest heq hne
      rw [List.cons.injEq] at hne
      obtain ⟨rfl, rfl⟩ := hne
      rw [ih (fun hm => hs (List.mem_cons_of_mem _ hm))]

theorem matchBrAt_lt_none : ∀ {s : List Char}, '<' ∉ s → matchBrAt s = none
  | [], _ => rfl
  | [a], _ => rfl
  | [a, b], _ => rfl
  | a :: b :: r :: rest, hs => by
    simp only [matchBrAt]
    rw [if_neg]
    rintro ⟨h1, -, -⟩
    exact hs (h1 ▸ List.mem_cons_self _ _)

theorem replaceBr_lt_id : ∀ (s : List Char), '<' ∉ s → replaceBr s = s := by
  intro s
  induction s with
  | nil => intro _; simp [replaceBr]
  | cons c t ih =>
    intro hs
    have hm : matchBrAt (c :: t) = none := matchBrAt_lt_none hs
    simp only [replaceBr]
    rw [dif_neg (by simp [hm]), ih (fun hmem => hs (List.mem_cons_of_mem _ hmem))]

theorem removeTags_lt_id : ∀ (s : List Char), '<' ∉ s → removeTags s = s := by
  intro s
  induction s with
  | nil => intro _; simp [removeTags]
  | cons c t ih =>
    intro hs
    have hc : c ≠ '<' := fun he => hs (he ▸ List.mem_cons_self _ _)
    simp only [removeTags]
    rw [if_neg (by rintro ⟨hh, -⟩; exact hc hh),
      ih (fun hm => hs (List.mem_cons_of_mem _ hm))]

theorem map_nbsp_id {s : List Char} (hsp : ∀ c ∈ s, jsWs c = true → c = ' ') :
    s.map (fun c => if c.toNat = 0xa0 then ' ' else c) = s := by
  induction s with
  | nil => rfl
  | cons c t ih =>
    simp only [List.map_cons]
    rw [ih (fun d hd => hsp d (List.mem_cons_of_mem _ hd))]
    congr 1
    by_cases hc : c.toNat = 0xa0
    · have hws : jsWs c = true := by simp [jsWs, hc]
      have hcv := hsp c (List.mem_cons_self _ _) hws
      rw [hcv] at hc
      exact absurd hc (by decide)
    · rw [if_neg hc]

theorem decodeHtmlEntities_amp_id {s : List Char} (hs : '&' ∉ s) :
    decodeHtmlEntities s = s := by
  unfold decodeHtmlEntities
  rw [replaceAllLit_head_id (by decide) s hs]
  rw [replaceAllLit_head_id (by decide) s hs]
  rw [replaceAllLit_head_id (by decide) s hs]
  rw [replaceAllLit_head_id (by decide) s hs]
  rw [replaceAllLit_head_id (by decide) s hs]
  rw [replaceAllLit_head_id (by decide) s hs]
  rw [replaceAllLit_head_id (by decide) s hs]
  rw [replaceAllLit_head_id (by decide) s hs]
  rw [replaceAllLit_head_id (by decide) s hs]
  rw [decodeDecEntities_amp_id s hs, decodeHexEntities_amp_id s hs]

theorem stripTags_clean {b : List Char} (hlt : '<' ∉ b) (hamp : '&' ∉ b)
    (hsp : ∀ c ∈ b, jsWs c = true → c = ' ') : stripTags b = b := by
  unfold stripTags
  rw [decodeHtmlEntities_amp_id hamp, replaceBr_lt_id b hlt, removeTags_lt_id b hlt,
    map_nbsp_id hsp]

theorem cleanTextFragment_clean {b : List Char} (hlt : '<' ∉ b) (hamp : '&' ∉ b)
    (hsp : ∀ c ∈ b, jsWs c = true → c = ' ') :
    cleanTextFragment b = normalizeLine b := by
  unfold cleanTextFragment
  have e1 : replaceAllRe citacnyToks [] b = b := by
    unfold citacnyToks
    exact replaceAllRe_headLt_id (by decide) b hlt
  have e2 : replaceAllRe supToks [] b = b := by
    unfold supToks
    exact replaceAllRe_headLt_id (by decide) b hlt
  have e3 : replaceAllRe aOpenToks [] b = b := by
    unfold aOpenToks
    exact replaceAllRe_headLt_id (by decide) b hlt
  have e4 : replaceAllRe aCloseToks [] b = b := by
    unfold aCloseToks
    exact replaceAllRe_headLt_id (by decide) b hlt
  rw [e1, e2, e3, e4, stripTags_clean hlt hamp hsp]

theorem buildProvisionContent_clean {b : List Char} (hlt : '<' ∉ b) :
    buildProvisionContent b = normalizeLine (cleanTextFragment b) := by
  have ho : replaceFirstRe paragrafOznStripToks [] b = b := by
    unfold paragrafOznStripToks
    exact replaceFirstRe_headLt_id (by decide) b hlt
  have hn : replaceFirstRe paragrafNadpisStripToks [] b = b := by
    unfold paragrafNadpisStripToks
    exact replaceFirstRe_headLt_id (by decide) b hlt
  have hsc : scanAll tokenToks b 0 = [] := by
    unfold tokenToks
    exact scanAll_headLt_nil (by decide) hlt
  simp only [buildProvisionContent, ho, hn, hsc, List.map_nil]
  simp [buildLines]



theorem dedupeAdjacent_ne_nil : ∀ {xs : List (List Char)},
    xs ≠ [] → dedupeAdjacent xs ≠ [] := by
  intro xs
  induction xs using dedupeAdjacent.induct with
  | case1 => intro hx; exact absurd rfl hx
  | case2 x => intro _; simp [dedupeAdjacent]
  | case3 x y ih =>
    intro _
    rw [dedupeAdjacent, if_pos rfl]
    exact ih (by simp)
  | case4 x y rest hne ih =>
    intro _
    rw [dedupeAdjacent, if_neg hne]
    simp

theorem dedupeAdjacent_subset : ∀ {xs : List (List Char)} {l : List Char},
    l ∈ dedupeAdjacent xs → l ∈ xs := by
  intro xs
  induction xs using dedupeAdjacent.induct with
  | case1 => intro l hl; simpa [dedupeAdjacent] using hl
  | case2 x => intro l hl; simpa [dedupeAdjacent] using hl
  | case3 x y ih =>
    intro l hl
    rw [dedupeAdjacent, if_pos rfl] at hl
    rcases List.mem_cons.mp (ih hl) with rfl | hl'
    · exact List.mem_cons_self _ _
    · exact List.mem_cons_of_mem _ (List.mem_cons_of_mem _ hl')
  | case4 x y rest hne ih =>
    intro l hl
    rw [dedupeAdjacent, if_neg hne] at hl
    rcases List.mem_cons.mp hl with rfl | hl'
    · exact List.mem_cons_self _ _
    · exact List.mem_cons_of_mem _ (ih hl')

theorem buildLines_mem :
    ∀ (ms : List (List (Option (List Char)))) (buf : List (List Char)) {l : List Char},
      l ∈ buildLines ms buf → ∃ x, l = normalizeLine x := by
  intro ms
  induction ms with
  | nil => intro buf l hl; simp [buildLines] at hl
  | cons caps rest ih =>
    intro buf l hl
    simp only [buildLines] at hl
    split at hl
    · exact ih _ hl
    · split at hl
      · rcases List.mem_cons.mp hl with rfl | hl'
        · exact ⟨_, rfl⟩
        · exact ih _ hl'
      · exact ih _ hl

theorem intercalate_nl_singleton (l : List Char) :
    List.intercalate "\n".data [l] = l := by
  simp [List.intercalate]

theorem nl_mem_intercalate_cons_cons (x y : List Char) (rest : List (List Char)) :
    '\n' ∈ List.intercalate "\n".data (x :: y :: rest) := by
  simp [List.intercalate, List.intersperse]

theorem nw_image_of_intercalate {lines : List (List Char)}
    (hmem : ∀ l ∈ lines, ∃ x, l = normalizeLine x) (hne : lines ≠ [])
    (hnl : '\n' ∉ List.intercalate "\n".data (dedupeAdjacent lines)) :
    ∃ z, List.intercalate "\n".data (dedupeAdjacent lines) = normalizeWhitespace z := by
  rcases hd : dedupeAdjacent lines with _ | ⟨l0, rest0⟩
  · exact absurd hd (dedupeAdjacent_ne_nil hne)
  · rcases rest0 with _ | ⟨l1, rest1⟩
    · obtain ⟨x, hx⟩ := hmem l0 (dedupeAdjacent_subset (by rw [hd]; exact List.mem_cons_self _ _))
      refine ⟨replSpTabNl x, ?_⟩
      rw [intercalate_nl_singleton, hx]
      rfl
    · rw [hd] at hnl
      exact absurd (nl_mem_intercalate_cons_cons l0 l1 rest1) hnl

theorem buildProvisionContent_nw_image (html : List Char)
    (hnl : '\n' ∉ buildProvisionContent html) :
    ∃ z, buildProvisionContent html = normalizeWhitespace z := by
  simp only [buildProvisionContent] at hnl ⊢
  by_cases hc : buildLines ((scanAll tokenToks (replaceFirstRe paragrafNadpisStripToks []
      (replaceFirstRe paragrafOznStripToks [] html)) 0).map (fun m => m.2)) [] = []
  · rw [if_pos hc]
    exact ⟨replSpTabNl (cleanTextFragment (replaceFirstRe paragrafNadpisStripToks []
      (replaceFirstRe paragrafOznStripToks [] html))), rfl⟩
  · rw [if_neg hc] at hnl ⊢
    exact nw_image_of_intercalate (fun l hl => buildLines_mem _ _ hl) hc hnl

/-- A provision span with two `text` blocks: the first pass joins the two
cleaned lines with a newline, which a second pass collapses to a space, so
reconstruction is *not* idempotent on multi-line bodies. -/
def wSpan : List Char :=
  "<div class=\"text\">prvá veta</div><div class=\"text\">druhá veta</div>".data

set_option maxRecDepth 200000 in
set_option maxHeartbeats 16000000 in
/-- **C6 (counterexample).**  Feeding the reconstructed body of `wSpan` back
through `buildProvisionContent` as a standalone block does not reproduce it:
the first pass yields two newline-joined lines, the second pass collapses
the newline to a space. -/
theorem buildProvisionContent_not_idempotent :
    buildProvisionContent wSpan = "prvá veta\ndruhá veta".data ∧
    buildProvisionContent (buildProvisionContent wSpan)
      = "prvá veta druhá veta".data ∧
    buildProvisionContent (buildProvisionContent wSpan) ≠ buildProvisionContent wSpan := by
  have e1 : buildProvisionContent wSpan = "prvá veta\ndruhá veta".data := by
    simp +decide [wSpan, buildProvisionContent, replaceFirstRe, paragrafOznStripToks,
      paragrafNadpisStripToks, tokenToks, scanAll, scanStep, matchToks, greedyTry,
      capGreedyTry, lazyTry, capLazyTry, altTry, buildLines, cleanTextFragment,
      replaceAllRe, citacnyToks, supToks, aOpenToks, aCloseToks, stripTags,
      decodeHtmlEntities, decodeDecEntities, decodeHexEntities, isDigitCh, isHexCh,
      replaceAllLit, replaceBr, matchBrAt, brClose, removeTags, normalizeLine,
      replSpTabNl, isSpTab, normalizeWhitespace, collapseWs, jsTrim, jsWs,
      isPrefixOfCI, charEqCI, foldLower, dedupeAdjacent, List.intercalate,
      List.intersperse, toksCaps, tokCaps]
  have e2 : buildProvisionContent "prvá veta\ndruhá veta".data
      = "prvá veta druhá veta".data := by
    simp +decide [buildProvisionContent, replaceFirstRe, paragrafOznStripToks,
      paragrafNadpisStripToks, tokenToks, scanAll, scanStep, matchToks, greedyTry,
      capGreedyTry, lazyTry, capLazyTry, altTry, buildLines, cleanTextFragment,
      replaceAllRe, citacnyToks, supToks, aOpenToks, aCloseToks, stripTags,
      decodeHtmlEntities, decodeDecEntities, decodeHexEntities, isDigitCh, isHexCh,
      replaceAllLit, replaceBr, matchBrAt, brClose, removeTags, normalizeLine,
      replSpTabNl, isSpTab, normalizeWhitespace, collapseWs, jsTrim, jsWs,
      isPrefixOfCI, charEqCI, foldLower, dedupeAdjacent, List.intercalate,
      List.intersperse, toksCaps, tokCaps]
  refine ⟨e1, ?_, ?_⟩
  · rw [e1]
    exact e2
  · rw [e1, e2]
    decide

/-- **C6 (amended).**  Reconstruction *is* idempotent on already-clean
single-line bodies: whenever the reconstructed body contains no newline, no
`<` and no `&` — that is, it is a clean standalone block with no marker
divs, no tags, no entities and no line break — a second pass over that body
returns it unchanged.  (The multi-line case fails: see the
counterexample.) -/
theorem buildProvisionContent_idempotent (html : List Char)
    (h1 : '\n' ∉ buildProvisionContent html)
    (h2 : '<' ∉ buildProvisionContent html)
    (h3 : '&' ∉ buildProvisionContent html) :
    buildProvisionContent (buildProvisionContent html) = buildProvisionContent html := by
  obtain ⟨z, hz⟩ := buildProvisionContent_nw_image html h1
  have hcanon := normalizeWhitespace_canon z
  rw [← hz] at hcanon
  obtain ⟨hsp, hch, hh, hl⟩ := hcanon
  have hnlfix : normalizeLine (buildProvisionContent html) = buildProvisionContent html := by
    unfold normalizeLine
    rw [replSpTabNl_eq_self h1, normalizeWhitespace_of_canon hsp hch hh hl]
  rw [buildProvisionContent_clean h2, cleanTextFragment_clean h2 h3 hsp, hnlfix, hnlfix]

set_option maxRecDepth 200000 in
set_option maxHeartbeats 4000000 in
/-- A plain one-word block reconstructs to itself. -/
theorem bpc_slovo : buildProvisionContent "slovo".data = "slovo".data := by
  simp +decide [buildProvisionContent, replaceFirstRe, paragrafOznStripToks,
    paragrafNadpisStripToks, tokenToks, scanAll, scanStep, matchToks, greedyTry,
    capGreedyTry, lazyTry, capLazyTry, altTry, buildLines, cleanTextFragment,
    replaceAllRe, citacnyToks, supToks, aOpenToks, aCloseToks, stripTags,
    decodeHtmlEntities, decodeDecEntities, decodeHexEntities, isDigitCh, isHexCh,
    replaceAllLit, replaceBr, matchBrAt, brClose, removeTags, normalizeLine,
    replSpTabNl, isSpTab, normalizeWhitespace, collapseWs, jsTrim, jsWs,
    isPrefixOfCI, charEqCI, foldLower, dedupeAdjacent, List.intercalate,
    List.intersperse, toksCaps, tokCaps]

/-- Witness for C6 (amended), at the concrete clean block `"slovo"`. -/
theorem buildProvisionContent_idempotent_witness :
    buildProvisionContent (buildProvisionContent "slovo".data)
      = buildProvisionContent "slovo".data :=
  buildProvisionContent_idempotent "slovo".data
    (by rw [bpc_slovo]; decide) (by rw [bpc_slovo]; decide) (by rw [bpc_slovo]; decide)

/-! ### `extractPredpisBlock` and the provision loop of
`parseActFromVersionPage` (fetcher.ts, lines 299–314 and 496–546) -/

/-- First occurrence index of a literal (JS `String.prototype.indexOf`). -/
def indexOfLit (needle : List Char) : List Char → Option Nat
  | [] => if needle = [] then some 0 else none
  | c :: t =>
    if needle.isPrefixOf (c :: t) then some 0 else (indexOfLit needle t).map (· + 1)

/-- `extractPredpisBlock` (fetcher.ts lines 299–314): locate the `predpis`
root marker (throwing when absent) and truncate at the earliest of the three
annex/notes markers that follows it. -/
def extractPredpisBlock (html : List Char) : Except (List Char) (List Char) :=
  match indexOfLit "<div class=\"predpis Skupina \" id=\"predpis\">".data html with
  | none => .error "Unable to locate predpis root block in statute HTML".data
  | some start =>
    let fromStart := html.drop start
    let cut := fun (marker : List Char) (acc : Nat) =>
      match indexOfLit marker fromStart with
      | some idx => if idx < acc then idx else acc
      | none => acc
    let endRel :=
      cut "<div class=\"poznamky\"".data
        (cut "<div id=\"Prilohy\"".data
          (cut "<div id=\"Poznamky\"".data (html.length - start)))
    .ok (fromStart.take endRel)

/-- `/<div class="paragraf Skupina [^"]*" id="(paragraf-[^"]+)">/g`. -/
def paragrafStartToks : List Tok :=
  [.lit "<div class=\"paragraf Skupina ".data, .many (fun c => c != '"'),
   .lit "\" id=\"".data,
   .capLitMany1 "paragraf-".data (fun c => c != '"'),
   .lit "\">".data]

/-- JS non-global `String.prototype.replace` with a literal pattern. -/
def replaceFirstLit (pat rep : List Char) : List Char → List Char
  | [] => []
  | c :: t =>
    if pat.isPrefixOf (c :: t) ∧ 0 < pat.length then rep ++ (c :: t).drop pat.length
    else c :: replaceFirstLit pat rep t

/-- `provisionRef.replace(/^§\s+/u, '§')`: collapse the space after `§`. -/
def canonPara (s : List Char) : List Char :=
  match s with
  | '§' :: rest =>
    if 0 < (rest.takeWhile jsWs).length then '§' :: rest.dropWhile jsWs else s
  | _ => s

/-- `provisionRef.replace(/^§\s*/i, '')`. -/
def sectionFrom (s : List Char) : List Char :=
  match s with
  | '§' :: rest => rest.dropWhile jsWs
  | _ => s

/-- `/<div class="paragrafOznacenie"[^>]*>([\s\S]*?)<\/div>/i` (capturing). -/
def paragrafOznCapToks : List Tok :=
  [.litCI "<div class=\"paragrafOznacenie\"".data, .many (fun c => c != '>'),
   .lit ">".data, .capLazy, .litCI "</div>".data]

/-- `/<div class="paragrafNadpis[^>]*>([\s\S]*?)<\/div>/i` (capturing). -/
def paragrafNadpisCapToks : List Tok :=
  [.litCI "<div class=\"paragrafNadpis".data, .many (fun c => c != '>'),
   .lit ">".data, .capLazy, .litCI "</div>".data]

/-- One iteration of the provision loop (fetcher.ts lines 522–546) on the
block `[start, end)`; returns `none` when the reconstructed content is
discarded (`!content || content.length < 5`). -/
def provisionOfBlock (block : List Char) (idCap : List Char)
    (chapter : Option (List Char)) : Option ParsedProvision :=
  let provisionRefRaw :=
    (extractByRegex block paragrafOznCapToks).getD
      ("§ ".data ++ replaceFirstLit "paragraf-".data [] idCap)
  let provisionRef := canonPara (normalizeWhitespace provisionRefRaw)
  let sec := normalizeWhitespace (sectionFrom provisionRef)
  let heading := extractByRegex block paragrafNadpisCapToks
  let titleValue :=
    match heading with
    | some h => normalizeWhitespace h
    | none => provisionRef
  let content := buildProvisionContent block
  if content = [] ∨ content.length < 5 then none
  else some
    { provision_ref := provisionRef
      chapter := chapter
      section_ := sec
      title := titleValue
      content := content }

/-! ### `findChapterLabel` (fetcher.ts, lines 316–353) -/

/-- The hierarchy-unit regex for a unit name `u`:
`<div class="{u}Oznacenie"[^>]*>([\s\S]*?)<\/div>(?:\s*<div class="{u}Nadpis NADPIS"[^>]*>([\s\S]*?)<\/div>)?` (gi). -/
def unitToks (u : List Char) : List Tok :=
  [.litCI ("<div class=\"".data ++ u ++ "Oznacenie\"".data),
   .many (fun c => c != '>'), .lit ">".data, .capLazy, .litCI "</div>".data,
   .opt [.many jsWs,
     .litCI ("<div class=\"".data ++ u ++ "Nadpis NADPIS\"".data),
     .many (fun c => c != '>'), .lit ">".data, .capLazy, .litCI "</div>".data]]

/-- `findLastHierarchyUnit` (fetcher.ts lines 316–337): the last match whose
merged (label + optional heading) cleaned text is non-empty. -/
def findLastHierarchyUnit (snippet : List Char) (u : List Char) :
    Option (List Char) :=
  (((scanAll (unitToks u) snippet 0).map (fun m =>
      let ozn := cleanTextFragment ((m.2.getD 0 none).getD [])
      let nadpis := cleanTextFragment ((m.2.getD 1 none).getD [])
      normalizeWhitespace (ozn ++ ' ' :: nadpis))).filter
    (fun merged => merged ≠ [])).getLast?

/-- `findChapterLabel` (fetcher.ts lines 339–353): look back at most 15000
characters from the provision start, take the last occurrence of each
hierarchy-unit kind in broad-to-narrow order, and join the non-empty ones
with `" / "`. -/
def findChapterLabel (predpisHtml : List Char) (paragraphPos : Nat) :
    Option (List Char) :=
  let snippet := (predpisHtml.take paragraphPos).drop (paragraphPos - 15000)
  let parts :=
    ([findLastHierarchyUnit snippet "cast".data,
      findLastHierarchyUnit snippet "hlava".data,
      findLastHierarchyUnit snippet "diel".data,
      findLastHierarchyUnit snippet "oddiel".data,
      findLastHierarchyUnit snippet "skupinaParagrafov".data]).filterMap id
  if parts = [] then none else some (List.intercalate " / ".data parts)

/-- The provision loop of `parseActFromVersionPage` (fetcher.ts lines
514–546) with each kept provision paired with its start position.  Each
span runs from its start marker to the next start marker (or the end of the
truncated root block). -/
def provisionsWithPos (predpisHtml : List Char) :
    List (Nat × List (Option (List Char))) → List (Nat × ParsedProvision)
  | [] => []
  | (pos, caps) :: rest =>
    let endPos := match rest with
      | [] => predpisHtml.length
      | (pos2, _) :: _ => pos2
    let block := (predpisHtml.drop pos).take (endPos - pos)
    let idCap := (caps.getD 0 none).getD []
    let chapter := findChapterLabel predpisHtml pos
    match provisionOfBlock block idCap chapter with
    | none => provisionsWithPos predpisHtml rest
    | some p => (pos, p) :: provisionsWithPos predpisHtml rest

/-- A concrete lookback window: a `hlava` (title) marker followed by two
`cast` (part) markers. -/
def wSnippet : List Char :=
  ("<div class=\"hlavaOznacenie\">PRVA HLAVA</div>"
    ++ "<div class=\"castOznacenie\">PRVA CAST</div>"
    ++ "<div class=\"castOznacenie\">DRUHA CAST</div>").data

set_option maxRecDepth 200000 in
set_option maxHeartbeats 8000000 in
/-- **C8.**  Chapter-label lookback is bounded: `findChapterLabel` reads only
the window of (at most) 15000 characters before the provision start, so any
two documents agreeing on that window yield the same label — markers lying
entirely outside the window contribute nothing.  On a concrete window, the
last occurrence of each unit kind is taken (the second `cast` marker wins)
and the parts are joined broadest-to-narrowest with `" / "` (the `cast` part
precedes the `hlava` part even though `hlava` occurs first in the text). -/
theorem findChapterLabel_spec :
    (∀ (h1 h2 : List Char) (pos : Nat),
      (h1.take pos).drop (pos - 15000) = (h2.take pos).drop (pos - 15000) →
      findChapterLabel h1 pos = findChapterLabel h2 pos) ∧
    findChapterLabel wSnippet wSnippet.length
      = some "DRUHA CAST / PRVA HLAVA".data := by
  constructor
  · intro h1 h2 pos hwin
    simp only [findChapterLabel]
    rw [hwin]
  · simp +decide [findChapterLabel, wSnippet, findLastHierarchyUnit, unitToks, scanAll,
      scanStep, matchToks, greedyTry, capGreedyTry, lazyTry, capLazyTry, altTry,
      cleanTextFragment, replaceAllRe, citacnyToks, supToks, aOpenToks, aCloseToks,
      stripTags, decodeHtmlEntities, decodeDecEntities, decodeHexEntities,
      replaceAllLit, replaceBr, matchBrAt, brClose, removeTags, normalizeLine,
      normalizeWhitespace, collapseWs, jsTrim, replSpTabNl, isSpTab, jsWs,
      isPrefixOfCI, charEqCI, foldLower, toksCaps, tokCaps]

theorem findChapterLabel_spec_witness :
    findChapterLabel [] 0 = findChapterLabel [] 0 ∧
    findChapterLabel wSnippet wSnippet.length
      = some "DRUHA CAST / PRVA HLAVA".data :=
  ⟨findChapterLabel_spec.1 [] [] 0 rfl, findChapterLabel_spec.2⟩

/-- The provisions of one version page, from the truncated root block. -/
def parseProvisions (predpisHtml : List Char) : List ParsedProvision :=
  (provisionsWithPos predpisHtml (scanAll paragrafStartToks predpisHtml 0)).map
    (fun m => m.2)

theorem provisionsWithPos_content (predpisHtml : List Char) :
    ∀ ms, ∀ q ∈ provisionsWithPos predpisHtml ms,
      q.2.content ≠ [] ∧ 5 ≤ q.2.content.length := by
  intro ms
  induction ms with
  | nil => intro q hq; simp [provisionsWithPos] at hq
  | cons m rest ih =>
    intro q hq
    obtain ⟨pos, caps⟩ := m
    simp only [provisionsWithPos] at hq
    split at hq
    · exact ih q hq
    · rename_i p hblock
      rcases List.mem_cons.mp hq with rfl | hq
      · simp only [provisionOfBlock] at hblock
        split at hblock
        · cases hblock
        · rename_i hcond
          push_neg at hcond
          simp only [Option.some.injEq] at hblock
          subst hblock
          exact hcond
      · exact ih q hq

theorem provisionsWithPos_sublist (predpisHtml : List Char) :
    ∀ ms, List.Sublist ((provisionsWithPos predpisHtml ms).map Prod.fst)
      (ms.map Prod.fst) := by
  intro ms
  induction ms with
  | nil => simp [provisionsWithPos]
  | cons m rest ih =>
    obtain ⟨pos, caps⟩ := m
    simp only [provisionsWithPos]
    split
    · exact ih.cons _
    · simp only [List.map_cons]
      exact ih.cons₂ _

/-- **C5.**  Every provision kept by the provision loop has a non-empty
reconstructed body of length at least 5 (shorter bodies are discarded), and
the kept provisions appear in the output in the same order as their start
markers appear in the document: their start positions form a subsequence of
the (strictly increasing) start-marker positions. -/
theorem parseProvisions_spec (predpisHtml : List Char) :
    (∀ p ∈ parseProvisions predpisHtml, p.content ≠ [] ∧ 5 ≤ p.content.length) ∧
    List.Sublist
      ((provisionsWithPos predpisHtml
        (scanAll paragrafStartToks predpisHtml 0)).map Prod.fst)
      ((scanAll paragrafStartToks predpisHtml 0).map Prod.fst) ∧
    ((provisionsWithPos predpisHtml
        (scanAll paragrafStartToks predpisHtml 0)).map Prod.fst).Pairwise (· < ·) := by
  refine ⟨?_, provisionsWithPos_sublist predpisHtml _, ?_⟩
  · intro p hp
    simp only [parseProvisions, List.mem_map] at hp
    obtain ⟨q, hq, rfl⟩ := hp
    exact provisionsWithPos_content predpisHtml _ q hq
  · exact ((scanAll_pos_strict (noEmpty_of_lit (by decide) _)
      predpisHtml 0).2).sublist (provisionsWithPos_sublist predpisHtml _)

/-! ### `extractDefinitions` (fetcher.ts, lines 394–435) -/

/-- JS `String.prototype.includes` on `List Char`. -/
def containsSub (needle hay : List Char) : Bool := (indexOfLit needle hay).isSome

/-- The `[a-z]` class of the line regex `/^[a-z]\)\s+(.+)/i` (fetcher.ts
line 411): with the `i` flag it matches exactly the ASCII letters. -/
def isAsciiLetter (c : Char) : Bool :=
  decide (0x61 ≤ c.toNat ∧ c.toNat ≤ 0x7a) || decide (0x41 ≤ c.toNat ∧ c.toNat ≤ 0x5a)

/-- The regex `.`: any character except a line terminator. -/
def isDotCh (c : Char) : Bool :=
  !(c.toNat == 0xa || c.toNat == 0xd || c.toNat == 0x2028 || c.toNat == 0x2029)

/-- The backtracking tail of `/^[a-z]\)\s+(.+)/i` when everything after the
`)` is whitespace: the greedy `\s+` (which matched all of `w`) gives
characters back until `(.+)` can start on a `.`-matching character, so the
capture starts at the largest index `i ≥ 1` of `w` holding a `.`-character
(`\s+` keeps at least one character), and `(.+)` then takes the longest
`.`-run from there. -/
def dotTailCapture (w : List Char) : Option (List Char) :=
  match ((List.range w.length).filter
      (fun i => decide (1 ≤ i) && isDotCh (w.getD i ' '))).getLast? with
  | some i => some ((w.drop i).takeWhile isDotCh)
  | none => none

/-- `line.match(/^[a-z]\)\s+(.+)/i)` (fetcher.ts line 411), returning the
first capture group: an ASCII letter, a literal `)`, at least one
whitespace, then the greedy `(.+)`.  When the whitespace run reaches the
end of the line the greedy `\s+` backtracks (`dotTailCapture`); otherwise
the first character after the run is not whitespace, hence not a line
terminator, and `(.+)` takes the longest `.`-run from there. -/
def defLineCapture (line : List Char) : Option (List Char) :=
  match line with
  | c :: p :: rest =>
    if isAsciiLetter c && (p == ')') && !(rest.takeWhile jsWs).isEmpty then
      match rest.dropWhile jsWs with
      | [] => dotTailCapture (rest.takeWhile jsWs)
      | c2 :: r2 => some ((c2 :: r2).takeWhile isDotCh)
    else none
  | _ => none

/-- Whether the first character of a string is JS whitespace. -/
def headIsWs : List Char → Bool
  | c :: _ => jsWs c
  | [] => false

/-- Whether the separator regex
`/,|;|\sje\s|\ssú\s|\ssa\srozumie|\ssa\spovažuje|\sktor[ýaéeíôú]/i`
(fetcher.ts line 417) matches at the start of `s`.  For the head element of
`split` only the match's start position matters, so the matched alternative
and its length are irrelevant. -/
def sepAt : List Char → Bool
  | [] => false
  | c :: rest =>
    c == ',' || c == ';' ||
    (jsWs c &&
      ((isPrefixOfCI "je".data rest && headIsWs (rest.drop 2)) ||
       (isPrefixOfCI "sú".data rest && headIsWs (rest.drop 2)) ||
       (isPrefixOfCI "sa".data rest && headIsWs (rest.drop 2) &&
          isPrefixOfCI "rozumie".data (rest.drop 3)) ||
       (isPrefixOfCI "sa".data rest && headIsWs (rest.drop 2) &&
          isPrefixOfCI "považuje".data (rest.drop 3)) ||
       (isPrefixOfCI "ktor".data rest &&
          (match rest.drop 4 with
           | v :: _ => "ýaéeíôú".data.any (fun x => charEqCI v x)
           | [] => false))))

/-- `definitionText.split(sep)[0]` (fetcher.ts lines 416–418): the prefix
of the string before the first position where the separator regex matches
(the whole string when it never matches). -/
def splitHead : List Char → List Char
  | [] => []
  | c :: rest => if sepAt (c :: rest) then [] else c :: splitHead rest

/-- JS `String.prototype.split` at a newline (fetcher.ts line 410). -/
def splitNl : List Char → List (List Char)
  | [] => [[]]
  | c :: rest =>
    if c == '\n' then [] :: splitNl rest
    else
      match splitNl rest with
      | [] => [[c]]
      | l :: ls => (c :: l) :: ls

/-- The definition-like test of `extractDefinitions` (fetcher.ts lines
399–405), with `String.prototype.toLowerCase` modelled by `foldLower`. -/
def isDefinitionLike (p : ParsedProvision) : Bool :=
  containsSub "vymedzenie".data (p.title.map foldLower) ||
  containsSub "pojmov".data (p.title.map foldLower) ||
  containsSub "na účely tohto zákona sa rozumie".data (p.content.map foldLower) ||
  containsSub "na účely tohto zákona sa rozumejú".data (p.content.map foldLower)

/-- The per-line candidate loop of `extractDefinitions` (fetcher.ts lines
410–421), before the `seen`-set deduplication. -/
def provisionCandidates (p : ParsedProvision) : List ParsedDefinition :=
  (splitNl p.content).filterMap (fun line =>
    match defLineCapture line with
    | none => none
    | some cap =>
      let definitionText := normalizeWhitespace cap
      if definitionText.length < 12 then none
      else
        let term := normalizeWhitespace (splitHead definitionText)
        if term.length < 2 ∨ 140 < term.length then none
        else some { term := term, definition := definitionText,
                    source_provision := p.provision_ref })

/-- All candidates of a provision list in document order: the source loop
skips provisions that are not definition-like and scans the rest in order. -/
def allCandidates : List ParsedProvision → List ParsedDefinition
  | [] => []
  | p :: rest =>
    (if isDefinitionLike p then provisionCandidates p else []) ++ allCandidates rest

/-- The dedup key of fetcher.ts line 423:
`provision_ref + '|' + term.toLowerCase()`. -/
def defKeyOf (d : ParsedDefinition) : List Char :=
  d.source_provision ++ '|' :: d.term.map foldLower

/-- The `seen`-set deduplication of fetcher.ts lines 423–431: a candidate is
kept iff its key was not seen before, and keys are recorded in order. -/
def dedupByKey : List ParsedDefinition → List (List Char) → List ParsedDefinition
  | [], _ => []
  | d :: rest, seen =>
    if defKeyOf d ∈ seen then dedupByKey rest seen
    else d :: dedupByKey rest (defKeyOf d :: seen)

/-- `extractDefinitions` (fetcher.ts lines 394–435). -/
def extractDefinitions (ps : List ParsedProvision) : List ParsedDefinition :=
  dedupByKey (allCandidates ps) []

/-- Every candidate's term has between 2 and 140 characters: the guard of
fetcher.ts line 420. -/
theorem mem_provisionCandidates_term {p : ParsedProvision}
    {d : ParsedDefinition} (hd : d ∈ provisionCandidates p) :
    2 ≤ d.term.length ∧ d.term.length ≤ 140 := by
  simp only [provisionCandidates, List.mem_filterMap] at hd
  obtain ⟨line, _, heq⟩ := hd
  split at heq
  · cases heq
  · split at heq
    · cases heq
    · split at heq
      · cases heq
      · rename_i hterm
        push_neg at hterm
        obtain rfl := Option.some.inj heq
        exact hterm

/-- Membership in `allCandidates` comes from some provision's candidates. -/
theorem mem_allCandidates {ps : List ParsedProvision} {d : ParsedDefinition}
    (hd : d ∈ allCandidates ps) : ∃ p ∈ ps, d ∈ provisionCandidates p := by
  induction ps with
  | nil => simp [allCandidates] at hd
  | cons p rest ih =>
    simp only [allCandidates, List.mem_append] at hd
    rcases hd with hd | hd
    · by_cases hp : isDefinitionLike p
      · rw [if_pos hp] at hd
        exact ⟨p, List.mem_cons_self _ _, hd⟩
      · rw [if_neg hp] at hd
        cases hd
    · obtain ⟨q, hq, hdq⟩ := ih hd
      exact ⟨q, List.mem_cons_of_mem _ hq, hdq⟩

/-- Every member of the deduped list has an unseen key and is the first
candidate with its key (first occurrence wins). -/
theorem mem_dedupByKey {cands : List ParsedDefinition} {seen : List (List Char)}
    {d : ParsedDefinition} (hd : d ∈ dedupByKey cands seen) :
    defKeyOf d ∉ seen ∧
      cands.find? (fun c => defKeyOf c == defKeyOf d) = some d := by
  induction cands generalizing seen with
  | nil => simp [dedupByKey] at hd
  | cons c rest ih =>
    simp only [dedupByKey] at hd
    by_cases hc : defKeyOf c ∈ seen
    · rw [if_pos hc] at hd
      obtain ⟨hnot, hfind⟩ := ih hd
      have hcond : (defKeyOf c == defKeyOf d) = false := by
        refine beq_eq_false_iff_ne.mpr fun he => hnot ?_
        rw [← he]; exact hc
      refine ⟨hnot, ?_⟩
      simp only [List.find?, hcond]
      exact hfind
    · rw [if_neg hc] at hd
      rcases List.mem_cons.mp hd with rfl | hd'
      · refine ⟨hc, ?_⟩
        simp [List.find?]
      · obtain ⟨hnot, hfind⟩ := ih hd'
        have hne : defKeyOf c ≠ defKeyOf d := by
          intro he
          exact hnot (by rw [← he]; exact List.mem_cons_self _ _)
        have hcond : (defKeyOf c == defKeyOf d) = false := beq_eq_false_iff_ne.mpr hne
        refine ⟨fun hmem => hnot (List.mem_cons_of_mem _ hmem), ?_⟩
        simp only [List.find?, hcond]
        exact hfind

/-- The keys of the deduped list are pairwise distinct. -/
theorem dedupByKey_keys_nodup :
    ∀ (cands : List ParsedDefinition) (seen : List (List Char)),
      ((dedupByKey cands seen).map defKeyOf).Nodup
  | [], seen => by simp [dedupByKey]
  | c :: rest, seen => by
    simp only [dedupByKey]
    by_cases hc : defKeyOf c ∈ seen
    · rw [if_pos hc]
      exact dedupByKey_keys_nodup rest seen
    · rw [if_neg hc]
      simp only [List.map_cons, List.nodup_cons]
      refine ⟨?_, dedupByKey_keys_nodup rest _⟩
      intro hmem
      obtain ⟨d, hd, he⟩ := List.mem_map.mp hmem
      exact (mem_dedupByKey hd).1 (by rw [he]; exact List.mem_cons_self _ _)

/-- A concrete definition-like provision: two enumerated lines defining the
same term (one capitalised), so deduplication keeps only the first. -/
def wDefProv : ParsedProvision :=
  { provision_ref := "§ 2".data, chapter := none, section_ := [],
    title := "Vymedzenie pojmov".data,
    content := "a) vozidlom sa rozumie prvá vec\nb) Vozidlom sa rozumie druhá vec".data }

set_option maxRecDepth 100000 in
set_option maxHeartbeats 2000000 in
/-- **C7.**  For every ordered provision list, every `ParsedDefinition`
emitted by `extractDefinitions` has a term of length at least 2 and at most
140; the pairs (source provision reference, lowercased term) are pairwise
distinct within the output; and every emitted definition is the *first*
candidate (in document order) carrying its key, so when the same pair occurs
more than once the first occurrence is the one kept — illustrated concretely
on `wDefProv`, whose two lines define the same lowercased term and only the
first survives. -/
theorem extractDefinitions_spec (ps : List ParsedProvision) :
    (∀ d ∈ extractDefinitions ps, 2 ≤ d.term.length ∧ d.term.length ≤ 140) ∧
    ((extractDefinitions ps).map
      (fun d => (d.source_provision, d.term.map foldLower))).Nodup ∧
    (∀ d ∈ extractDefinitions ps,
      (allCandidates ps).find? (fun c => defKeyOf c == defKeyOf d) = some d) ∧
    extractDefinitions [wDefProv] =
      [{ term := "vozidlom".data,
         definition := "vozidlom sa rozumie prvá vec".data,
         source_provision := "§ 2".data }] := by
  have hmem : ∀ d ∈ extractDefinitions ps,
      (allCandidates ps).find? (fun c => defKeyOf c == defKeyOf d) = some d := by
    intro d hd
    simp only [extractDefinitions] at hd
    exact (mem_dedupByKey hd).2
  refine ⟨?_, ?_, hmem, ?_⟩
  · intro d hd
    have h2 : d ∈ allCandidates ps := List.mem_of_find?_eq_some (hmem d hd)
    obtain ⟨p, _, hdp⟩ := mem_allCandidates h2
    exact mem_provisionCandidates_term hdp
  · have h1 : ((extractDefinitions ps).map defKeyOf).Nodup := by
      simp only [extractDefinitions]
      exact dedupByKey_keys_nodup _ _
    have h2 : (extractDefinitions ps).map defKeyOf
        = ((extractDefinitions ps).map
            (fun d => (d.source_provision, d.term.map foldLower))).map
              (fun pr => pr.1 ++ '|' :: pr.2) := by
      rw [List.map_map]
      rfl
    rw [h2] at h1
    exact List.Nodup.of_map _ h1
  · simp +decide [extractDefinitions, allCandidates, isDefinitionLike, containsSub,
      indexOfLit, provisionCandidates, splitNl, defLineCapture, dotTailCapture,
      isAsciiLetter, isDotCh, jsWs, normalizeWhitespace, collapseWs, jsTrim,
      splitHead, sepAt, headIsWs, isPrefixOfCI, charEqCI, foldLower, dedupByKey,
      defKeyOf, wDefProv]

end SlovakLaw
